import Mathlib

/-!
Verification of the document ingestion and question-answering pipeline of the
`self` personal knowledge base (Go backend, `backend/internal/services`).

The Go services are shallowly embedded here:
* strings are `String` / `List Char`; Go `len(s)` (bytes) is `utf8Len`;
* Go `float64` scores are modelled as `ℚ` (the claims are about the score
  formulas, not floating-point rounding);
* the BPE tokenizer (`tiktoken-go`, an external dependency) is modelled by the
  in-repository fallback path (`tokenizer == nil`), under which
  `CountTokens = len(strings.Fields(text))` and `ChunkWithOverlap` takes the
  word-based branch, exactly as written in `chunk_service.go`;
* the PostgreSQL queries of `search_service.go` are embedded as list
  semantics over an explicit store (join, filter, order, limit), with the
  distance / ts_rank operators taken as parameters;
* LLM adaptors (`openai_client.go`, Claude client) are embedded by their
  post-processing of the call outcome (error, empty choices, bad JSON,
  parsed response), which is where the confidence clamp lives.
-/

namespace Self

/-- Character set of Go `unicode.IsSpace` (the Unicode `White_Space`
property): used by `strings.Fields` and `strings.TrimSpace`. -/
def goSpace (c : Char) : Bool :=
  (0x0009 ≤ c.val && c.val ≤ 0x000D) || c.val = 0x0020 || c.val = 0x0085 ||
  c.val = 0x00A0 || c.val = 0x1680 || (0x2000 ≤ c.val && c.val ≤ 0x200A) ||
  c.val = 0x2028 || c.val = 0x2029 || c.val = 0x202F || c.val = 0x205F ||
  c.val = 0x3000

/-- Character set of the RE2 escape `\s` used by Go `regexp` (`[\t\n\f\r ]`). -/
def re2Space (c : Char) : Bool :=
  c = ' ' || c = '\t' || c = '\n' || c = '\x0c' || c = '\r'

/-- UTF-8 byte size of one character, as Go `len(string(c))` counts it. -/
def charBytes (c : Char) : Nat :=
  if c.val < 0x80 then 1
  else if c.val < 0x800 then 2
  else if c.val < 0x10000 then 3
  else 4

/-- Go `len(s)` on a string: number of UTF-8 bytes. -/
def utf8Len (l : List Char) : Nat :=
  (l.map charBytes).sum

/-- Scanner behind Go `strings.Fields` / `strings.FieldsFunc`: `acc` holds
the current field reversed; a separator flushes it, and the end of the
input flushes a trailing field. -/
def fieldsAux (sep : Char → Bool) : List Char → List Char → List (List Char)
  | [], acc => if acc = [] then [] else [acc.reverse]
  | c :: cs, acc =>
    if sep c then
      if acc = [] then fieldsAux sep cs [] else acc.reverse :: fieldsAux sep cs []
    else fieldsAux sep cs (c :: acc)

/-- Go `strings.Fields` / `strings.FieldsFunc`: split at runs of characters
satisfying `sep`, never returning empty fields. -/
def fieldsBy (sep : Char → Bool) (l : List Char) : List (List Char) :=
  fieldsAux sep l []

/-- Go `strings.Fields` (whitespace fields) at the character-list level. -/
def fieldsChars (l : List Char) : List (List Char) :=
  fieldsBy goSpace l

/-- Go `strings.Fields`. -/
def strFields (s : String) : List String :=
  (fieldsChars s.data).map String.mk

/-- `ChunkService.CountTokens` in the `tokenizer == nil` fallback:
`len(strings.Fields(text))`. -/
def countTokens (s : String) : Nat :=
  (strFields s).length

/-- Left half of Go `strings.TrimSpace`. -/
def trimLeft (l : List Char) : List Char :=
  l.dropWhile goSpace

/-- Right half of Go `strings.TrimSpace`: drop the trailing run of
whitespace characters. -/
def trimRight : List Char → List Char
  | [] => []
  | c :: cs =>
    match trimRight cs with
    | [] => if goSpace c then [] else [c]
    | r => c :: r

/-- Go `strings.TrimSpace` at the character-list level. -/
def goTrim (l : List Char) : List Char :=
  trimRight (trimLeft l)

/-- Go `strings.TrimSpace` on strings. -/
def strTrim (s : String) : String :=
  String.mk (goTrim s.data)

/-- Go `strings.Join(pieces, " ")` at the character-list level. -/
def joinSpace : List (List Char) → List Char
  | [] => []
  | [w] => w
  | w :: ws => w ++ ' ' :: joinSpace ws

/-! ### Chunk service (`chunk_service.go`) -/

/-- Default `maxTokens` stored by `NewChunkService` (`chunk_service.go:21`). -/
def newChunkServiceMaxTokens : Nat := 500

/-- Sentence terminator characters used by `splitIntoSentences`. -/
def sentenceEnd (c : Char) : Bool :=
  c = '.' || c = '!' || c = '?'

/-- The `\n`/`\r` → space replacement both sentence splitters start with. -/
def crlfToSpace (c : Char) : Char :=
  if c = '\n' then ' ' else if c = '\r' then ' ' else c

/-- `ChunkService.splitIntoSentences`: replace CR/LF by spaces, split on the
characters `.` `!` `?` (Go `strings.FieldsFunc`), trim each fragment and keep
the nonempty ones. -/
def splitIntoSentences (text : String) : List String :=
  ((fieldsBy sentenceEnd (text.data.map crlfToSpace)).map goTrim).filterMap
    (fun s => if s.length > 0 then some (String.mk s) else none)

/-- Loop body shared by `ChunkText`: greedy sentence packing with flush when
the token budget would be exceeded (`chunk_service.go:39-57`). -/
def chunkTextLoop (maxTokens : Nat) : List String → List Char → Nat → List String → List String
  | [], cur, _, acc =>
    if cur ≠ [] then acc ++ [String.mk (goTrim cur)] else acc
  | s :: rest, cur, tok, acc =>
    let st := countTokens s
    let next :=
      if tok + st > maxTokens ∧ cur ≠ [] then
        (([] : List Char), 0, acc ++ [String.mk (goTrim cur)])
      else (cur, tok, acc)
    chunkTextLoop maxTokens rest (next.1 ++ s.data ++ [' ']) (next.2.1 + st) next.2.2

/-- `ChunkService.ChunkText`: a `maxTokens` argument of `0` falls back to the
service default of 500 set by `NewChunkService`. -/
def chunkText (text : String) (maxTokens : Nat) : List String :=
  let mt := if maxTokens = 0 then newChunkServiceMaxTokens else maxTokens
  chunkTextLoop mt (splitIntoSentences text) [] 0 []

/-- Window loop of `chunkWithOverlapWordBased` (`chunk_service.go:146-164`).
The Go `for start < len(words)` loop is embedded with explicit fuel; `none`
marks fuel exhaustion, which corresponds to the Go loop running forever (it
re-enters with the same `start` whenever `overlap ≥ chunkSize` keeps clamping
`start` to 1). -/
def wordWindowLoop (words : List (List Char)) (chunkSize overlap : Nat) :
    Nat → Nat → Option (List String)
  | 0, _ => none
  | fuel + 1, start =>
    if start < words.length then
      let e := min (start + chunkSize) words.length
      let chunk := String.mk (joinSpace ((words.drop start).take (e - start)))
      if e = words.length then some [chunk]
      else
        let start' := if e ≤ overlap then 1 else e - overlap
        (wordWindowLoop words chunkSize overlap fuel start').map (chunk :: ·)
    else some []

/-- `ChunkService.chunkWithOverlapWordBased`: word-window chunking with
overlap; returns the input unchanged when it fits in one window. -/
def chunkWithOverlapWordBased (text : String) (chunkSize overlap : Nat) : List String :=
  let words := fieldsChars text.data
  if words.length ≤ chunkSize then [text]
  else (wordWindowLoop words chunkSize overlap (words.length + 1) 0).getD []

/-- `ChunkService.ChunkWithOverlap` in the `tokenizer == nil` fallback: the
word-based branch. -/
def chunkWithOverlap (text : String) (chunkSize overlap : Nat) : List String :=
  chunkWithOverlapWordBased text chunkSize overlap

/-- Inner loop of `SmartChunkBySentences` over the sub-chunks of an oversize
sentence (`chunk_service.go:191-202`): the first sub-chunk is joined to a
pending unflushed chunk when one exists, the rest are emitted as chunks. -/
def oversizeEmit : List String → Nat → List Char → Nat → List String →
    List Char × Nat × List String
  | [], _, cur, tok, acc => (cur, tok, acc)
  | sub :: rest, i, cur, tok, acc =>
    if i = 0 ∧ cur ≠ [] then
      oversizeEmit rest (i + 1) [] 0 (acc ++ [String.mk (goTrim (cur ++ ' ' :: sub.data))])
    else
      oversizeEmit rest (i + 1) cur tok (acc ++ [sub])

/-- Main loop of `SmartChunkBySentences` (`chunk_service.go:177-208`): flush
when the budget would be exceeded, split oversize sentences through
`ChunkWithOverlap` with a 50-token overlap, otherwise append the sentence. -/
def smartLoop (maxTokens : Nat) : List String → List Char → Nat → List String → List String
  | [], cur, _, acc =>
    if cur ≠ [] then acc ++ [String.mk (goTrim cur)] else acc
  | s :: rest, cur, tok, acc =>
    let st := countTokens s
    let next :=
      if tok + st > maxTokens ∧ cur ≠ [] then
        (([] : List Char), 0, acc ++ [String.mk (goTrim cur)])
      else (cur, tok, acc)
    if st > maxTokens then
      let subs := chunkWithOverlap s maxTokens 50
      let after := oversizeEmit subs 0 next.1 next.2.1 next.2.2
      smartLoop maxTokens rest after.1 after.2.1 after.2.2
    else
      smartLoop maxTokens rest (next.1 ++ s.data ++ [' ']) (next.2.1 + st) next.2.2

/-- Scanner state for the regex `([.!?]+)(\s+|$)` of `smartSentenceSplit`:
plain text, inside a terminator run, or inside the whitespace following a
terminator run (both runs kept reversed). -/
inductive ScanMode where
  | text : ScanMode
  | punct : List Char → ScanMode
  | space : List Char → List Char → ScanMode

/-- Scanner equivalent of the Go regex work in `smartSentenceSplit`: the
pattern `([.!?]+)(\s+|$)` is matched left to right; `Split` pieces are
returned as parts and the matched separators (terminator run plus trailing
whitespace) as matches. A terminator run not followed by RE2 whitespace or
the end of the string does not match and stays inside the current part;
a match ending at the end of the input leaves the trailing empty part that
Go `Split` produces there. -/
def sentScanA : List Char → List Char → ScanMode → List (List Char) × List (List Char)
  | [], cur, .text => ([cur.reverse], [])
  | [], cur, .punct run => ([cur.reverse, []], [run.reverse])
  | [], cur, .space run sp => ([cur.reverse, []], [run.reverse ++ sp.reverse])
  | c :: cs, cur, .text =>
    if sentenceEnd c then sentScanA cs cur (.punct [c])
    else sentScanA cs (c :: cur) .text
  | c :: cs, cur, .punct run =>
    if sentenceEnd c then sentScanA cs cur (.punct (c :: run))
    else if re2Space c then sentScanA cs cur (.space run [c])
    else sentScanA cs (c :: (run ++ cur)) .text
  | c :: cs, cur, .space run sp =>
    if re2Space c then sentScanA cs cur (.space run (c :: sp))
    else
      let next :=
        if sentenceEnd c then sentScanA cs [] (.punct [c])
        else sentScanA cs [c] .text
      (cur.reverse :: next.1, (run.reverse ++ sp.reverse) :: next.2)

/-- Sentence assembly of `smartSentenceSplit` (`chunk_service.go:235-249`):
parts are trimmed, whitespace-only parts skipped, each surviving part gets
its trimmed terminator appended, and fragments of 10 bytes or fewer are
discarded. -/
def buildSentences (ms : List (List Char)) : Nat → List (List Char) → List String
  | _, [] => []
  | i, p :: ps =>
    if goTrim p = [] then buildSentences ms (i + 1) ps
    else
      let s := goTrim p ++ (if i < ms.length then goTrim (ms.getD i []) else [])
      if utf8Len s > 10 then String.mk s :: buildSentences ms (i + 1) ps
      else buildSentences ms (i + 1) ps

/-- Scanner behind the Go regex `\s+` → `" "` replacement of
`smartSentenceSplit`: `inRun` records whether the previous character was
RE2 whitespace, so each maximal whitespace run emits one space. -/
def collapseWSAux : Bool → List Char → List Char
  | _, [] => []
  | inRun, c :: cs =>
    if re2Space c then
      if inRun then collapseWSAux true cs else ' ' :: collapseWSAux true cs
    else c :: collapseWSAux false cs

/-- Whitespace collapsing done by `smartSentenceSplit`: the Go regex
`\s+` → `" "` replacement. -/
def collapseWS (l : List Char) : List Char :=
  collapseWSAux false l

/-- `ChunkService.smartSentenceSplit`: CR/LF replacement, whitespace
collapsing, trim, then regex sentence splitting with the 10-byte fragment
filter. -/
def smartSentenceSplit (text : String) : List String :=
  let t := goTrim (collapseWS (text.data.map crlfToSpace))
  let pm := sentScanA t [] .text
  buildSentences pm.2 0 pm.1

/-- `ChunkService.SmartChunkBySentences`. -/
def smartChunkBySentences (text : String) (maxTokens : Nat) : List String :=
  smartLoop maxTokens (smartSentenceSplit text) [] 0 []

/-! ### Search service (`search_service.go`) -/

/-- One row of `content_items` (fields used by the search queries). -/
structure ContentItemRow where
  id : String
  user_id : String
  content_type : String
  title : String
deriving DecidableEq

/-- One row of `chunks` (fields used by the search queries). -/
structure ChunkRow where
  id : String
  content_item_id : String
  chunk_text : String
deriving DecidableEq

/-- One row of `embeddings` (fields used by the search queries). -/
structure EmbeddingRow where
  id : String
  chunk_id : String
  embedding_model : String
  vector : List ℚ
deriving DecidableEq

/-- The relational store (`content_items`, `chunks`, `embeddings`). -/
structure Store where
  content_items : List ContentItemRow
  chunks : List ChunkRow
  embeddings : List EmbeddingRow
deriving DecidableEq

/-- `SearchResult` of `search_service.go` (the `ChunkSpan` JSON map is not
modelled; no claim mentions it). -/
structure SearchResult where
  id : String
  chunkText : String
  contentTitle : String
  contentType : String
  relevance : ℚ
  source : String
deriving DecidableEq, Inhabited

/-- SQL of `SearchService.vectorSearch` (`search_service.go:94-103`) as list
semantics: join `embeddings → chunks → content_items`, keep rows whose
`embedding_model` matches the query embedding's model, order by ascending
distance, limit, and report `1 − distance` as relevance. The pgvector
operator `e.embedding <=> query` is the parameter `dist` applied to the
stored vector. The query has no `user_id` predicate: no argument of this
function identifies the requesting user. -/
def vectorSearch (st : Store) (dist : List ℚ → ℚ) (queryModel : String)
    (limit : Nat) : List SearchResult :=
  let joined :=
    (st.embeddings.filter (fun e => e.embedding_model = queryModel)).flatMap fun e =>
      (st.chunks.filter (fun c => c.id = e.chunk_id)).flatMap fun c =>
        (st.content_items.filter (fun ci => ci.id = c.content_item_id)).map fun ci =>
          (dist e.vector, c, ci)
  let sorted := joined.insertionSort (fun a b => a.1 ≤ b.1)
  (sorted.take limit).map fun r =>
    { id := r.2.1.id, chunkText := r.2.1.chunk_text, contentTitle := r.2.2.title,
      contentType := r.2.2.content_type, relevance := 1 - r.1, source := "vector" }

/-- SQL of `SearchService.fullTextSearch` (`search_service.go:146-154`) as
list semantics: join `chunks → content_items`, keep rows whose text matches
the `plainto_tsquery` of the query (parameter `tsMatch`), order by
descending `ts_rank` (parameter `tsRank`), limit. As in `vectorSearch`,
no `user_id` predicate appears. -/
def fullTextSearch (st : Store) (tsMatch : String → Bool) (tsRank : String → ℚ)
    (limit : Nat) : List SearchResult :=
  let joined :=
    (st.chunks.filter (fun c => tsMatch c.chunk_text)).flatMap fun c =>
      (st.content_items.filter (fun ci => ci.id = c.content_item_id)).map fun ci =>
        (tsRank c.chunk_text, c, ci)
  let sorted := joined.insertionSort (fun a b => b.1 ≤ a.1)
  (sorted.take limit).map fun r =>
    { id := r.2.1.id, chunkText := r.2.1.chunk_text, contentTitle := r.2.2.title,
      contentType := r.2.2.content_type, relevance := r.1, source := "fulltext" }

/-- Owner of a chunk in the store: the `user_id` of the `ContentItem` the
chunk belongs to. -/
def ownerOfChunk (st : Store) (chunkId : String) : Option String :=
  (st.chunks.find? (fun c => c.id = chunkId)).bind fun c =>
    (st.content_items.find? (fun ci => ci.id = c.content_item_id)).map fun ci =>
      ci.user_id

/-- `SearchService.getContentTypeWeight` (`search_service.go:263-278`): the
Go map lookup with default `0.8`. -/
def getContentTypeWeight (contentType : String) : ℚ :=
  if contentType = "document" then 1
  else if contentType = "audio" then 7/10
  else if contentType = "video" then 3/5
  else if contentType = "image" then 1/2
  else if contentType = "webpage" then 4/5
  else if contentType = "email" then 9/10
  else 4/5

/-- `SearchService.calculateInformationDensity` (`search_service.go:280-294`):
piecewise on `len(chunkText)`, which in Go is the byte length. -/
def calculateInformationDensity (chunkText : String) : ℚ :=
  let textLength := utf8Len chunkText.data
  if textLength < 100 then 1/2
  else if textLength < 300 then 7/10
  else if textLength < 500 then 9/10
  else 1

/-- Stop-word set of `calculateContextRelevance` (`search_service.go:306-314`). -/
def stopWords : List String :=
  ["the", "a", "an", "and", "or", "but", "in", "on", "at", "to", "for", "of",
   "with", "by", "is", "are", "was", "were", "be", "been", "have", "has",
   "had", "will", "would", "could", "should", "this", "that", "these",
   "those", "it", "its", "i", "you", "he", "she", "we", "they", "them",
   "their"]

/-- Punctuation cutset of `strings.Trim(word, ".,!?;:()[]{}\"'")`. -/
def punctCutset (c : Char) : Bool :=
  c = '.' || c = ',' || c = '!' || c = '?' || c = ';' || c = ':' || c = '(' ||
  c = ')' || c = '[' || c = ']' || c = '\x7b' || c = '\x7d' || c = '"' || c = '\''

/-- Go `strings.Trim(word, cutset)`: drop cutset characters from both ends. -/
def trimCutset (l : List Char) : List Char :=
  ((l.dropWhile punctCutset).reverse.dropWhile punctCutset).reverse

/-- Normalisation applied to each word by `calculateContextRelevance`:
`strings.ToLower(strings.Trim(word, cutset))`. Go lowercases all of Unicode;
`Char.toLower` covers the ASCII range, which is all the stop-word test can
distinguish. -/
def normalizeWord (w : String) : String :=
  String.mk ((trimCutset w.data).map Char.toLower)

/-- The meaningful-word test of `calculateContextRelevance`
(`search_service.go:316-321`): not a stop word, and longer than 2 bytes
after trimming and lowercasing. -/
def isMeaningful (w : String) : Bool :=
  let word := normalizeWord w
  (!stopWords.contains word) && utf8Len word.data > 2

/-- `SearchService.calculateContextRelevance` (`search_service.go:296-326`):
`0.5` for a wordless chunk, otherwise `0.7 + 0.3 · meaningful/total`. -/
def calculateContextRelevance (chunkText : String) : ℚ :=
  let words := strFields chunkText
  if words.length = 0 then 1/2
  else
    let meaningfulWords : Nat := words.foldl (fun n w => if isMeaningful w then n + 1 else n) 0
    let ratio : ℚ := (meaningfulWords : ℚ) / (words.length : ℚ)
    7/10 + ratio * (3/10)

/-- `SearchService.calculateSourceAuthority` (`search_service.go:328-341`). -/
def calculateSourceAuthority (contentType : String) : ℚ :=
  if contentType = "document" then 1
  else if contentType = "webpage" then 7/10
  else if contentType = "audio" then 4/5
  else if contentType = "email" then 9/10
  else 4/5

/-- `SearchService.calculateTemporalRelevance` (`search_service.go:343-360`):
keyed on the result's content type. -/
def calculateTemporalRelevance (result : SearchResult) : ℚ :=
  if result.contentType = "document" then 1
  else if result.contentType = "email" then 19/20
  else if result.contentType = "webpage" then 9/10
  else if result.contentType = "audio" then 17/20
  else if result.contentType = "video" then 17/20
  else 19/20

/-- `SearchService.calculateAdvancedRelevance` (`search_service.go:234-261`):
the base relevance multiplied by the five weights. The `searchType`
argument is unused, as in the Go source. -/
def calculateAdvancedRelevance (result : SearchResult) (searchType : String) : ℚ :=
  let _ := searchType
  result.relevance *
    getContentTypeWeight result.contentType *
    calculateInformationDensity result.chunkText *
    calculateContextRelevance result.chunkText *
    calculateSourceAuthority result.contentType *
    calculateTemporalRelevance result

/-- `SearchService.boostDualSourceScore` (`search_service.go:362-366`). -/
def boostDualSourceScore (vectorScore fulltextScore : ℚ) : ℚ :=
  let _ := fulltextScore
  vectorScore * (12/10)

/-! ### Answer extraction (`answer_extraction_service.go`) and LLM adaptors
(`openai_client.go` and the Claude client) -/

/-- `LLMResponse`: the JSON object both adaptors expect from the model. -/
structure LLMResponse where
  answer : String
  confidence : ℚ
  hasAnswer : Bool
  reasoning : String
deriving DecidableEq, Inhabited

/-- `SourceMetadata` of `answer_extraction_service.go`. -/
structure SourceMetadata where
  chunkID : String
  title : String
  contentType : String
  pageNum : Option Nat := none
  startTime : Option ℚ := none
  endTime : Option ℚ := none
  speaker : Option String := none
deriving DecidableEq, Inhabited

/-- `ChunkWithMetadata` of `answer_extraction_service.go`. -/
structure ChunkWithMetadata where
  text : String
  metadata : SourceMetadata
deriving DecidableEq, Inhabited

/-- `AnswerResult` of `answer_extraction_service.go`. -/
structure AnswerResult where
  answer : String
  confidence : ℚ
  hasAnswer : Bool
  chunkID : String
  sourceChunk : String
  sourceTitle : String
  contentType : String
  startTime : Option ℚ := none
  endTime : Option ℚ := none
  speaker : Option String := none
  pageNum : Option Nat := none
deriving DecidableEq, Inhabited

/-- Outcome of one adaptor HTTP call, abstracting the network and JSON
layers that are external to the repository: the call can fail, return no
choices/content, return unparseable JSON, or return a parsed `LLMResponse`. -/
inductive LLMCallOutcome where
  | apiError : LLMCallOutcome
  | emptyChoices : LLMCallOutcome
  | badJSON : LLMCallOutcome
  | parsed : LLMResponse → LLMCallOutcome
deriving DecidableEq, Inhabited

/-- The confidence validation both adaptors apply after parsing
(`openai_client.go:128-133` and the identical Claude lines): values below 0
become 0 and values above 1 become 1. -/
def clampConfidence (c : ℚ) : ℚ :=
  if c < 0 then 0 else if c > 1 then 1 else c

/-- Post-processing of `ClaudeClient.ExtractAnswer`: errors propagate, bad
JSON becomes the zero-confidence fallback response, and a parsed response
has its confidence clamped into `[0, 1]`. -/
def claudeExtractAnswer (o : LLMCallOutcome) : Except String LLMResponse :=
  match o with
  | .apiError => .error "Claude API call failed"
  | .emptyChoices => .error "no content returned from Claude"
  | .badJSON => .ok { answer := "", confidence := 0, hasAnswer := false,
                      reasoning := "Failed to parse Claude response" }
  | .parsed r => .ok { r with confidence := clampConfidence r.confidence }

/-- Post-processing of `OpenAIClient.ExtractAnswer`: structurally identical
to the Claude adaptor. -/
def openaiExtractAnswer (o : LLMCallOutcome) : Except String LLMResponse :=
  match o with
  | .apiError => .error "OpenAI API call failed"
  | .emptyChoices => .error "no choices returned from OpenAI"
  | .badJSON => .ok { answer := "", confidence := 0, hasAnswer := false,
                      reasoning := "Failed to parse LLM response" }
  | .parsed r => .ok { r with confidence := clampConfidence r.confidence }

/-- `AnswerExtractionService.ExtractAnswer`: call the adaptor and copy its
response plus the source attribution into an `AnswerResult`. The adaptor is
a function of the query and chunk text, as in the `LLMClient` interface. -/
def extractAnswer (llm : String → String → Except String LLMResponse)
    (query chunk : String) (md : SourceMetadata) : Except String AnswerResult :=
  match llm query chunk with
  | .error e => .error e
  | .ok r =>
      .ok { answer := r.answer, confidence := r.confidence, hasAnswer := r.hasAnswer,
            chunkID := md.chunkID, sourceChunk := chunk, sourceTitle := md.title,
            contentType := md.contentType, pageNum := md.pageNum,
            startTime := md.startTime, endTime := md.endTime, speaker := md.speaker }

/-- `AnswerExtractionService.ExtractAnswersFromChunks`
(`answer_extraction_service.go:88-104`): per-chunk errors are skipped, and
only answers with `has_answer` and confidence above `0.1` are kept. -/
def extractAnswersFromChunks (llm : String → String → Except String LLMResponse)
    (query : String) : List ChunkWithMetadata → List AnswerResult
  | [] => []
  | ch :: rest =>
    match extractAnswer llm query ch.text ch.metadata with
    | .error _ => extractAnswersFromChunks llm query rest
    | .ok result =>
        if result.hasAnswer ∧ result.confidence > 1/10 then
          result :: extractAnswersFromChunks llm query rest
        else
          extractAnswersFromChunks llm query rest

/-- Swap of `ranked[i], ranked[j] = ranked[j], ranked[i]`. -/
def swapRanked (l : List AnswerResult) (i j : Nat) : List AnswerResult :=
  let x := l.getD i default
  let y := l.getD j default
  (l.set i y).set j x

/-- Inner loop of `RankAnswersByConfidence`
(`answer_extraction_service.go:129-133`): for fixed `i`, scan `j` from
`i + 1` and swap whenever `ranked[i].Confidence < ranked[j].Confidence`.
The Go `for j` loop runs `len - j` times; it is embedded with a fuel
counter so it stays structurally recursive, and callers pass fuel of at
least the list length, which the loop can never exhaust. -/
def rankInner : Nat → Nat → Nat → List AnswerResult → List AnswerResult
  | 0, _, _, l => l
  | fuel + 1, i, j, l =>
    if j < l.length then
      rankInner fuel i (j + 1)
        (if (l.getD i default).confidence < (l.getD j default).confidence
         then swapRanked l i j else l)
    else l

/-- Length preservation for the inner ranking loop. -/
theorem rankInner_length (fuel i j : Nat) (l : List AnswerResult) :
    (rankInner fuel i j l).length = l.length := by
  induction fuel generalizing j l with
  | zero => rfl
  | succ fuel ih =>
    rw [rankInner]
    by_cases hj : j < l.length
    · simp only [if_pos hj]
      rw [ih]
      split <;> simp [swapRanked]
    · simp [hj]

/-- Outer loop of `RankAnswersByConfidence`
(`answer_extraction_service.go:128-134`): `for i := 0; i < len(ranked)-1`,
again with fuel for structural recursion. -/
def rankOuter : Nat → Nat → List AnswerResult → List AnswerResult
  | 0, _, l => l
  | fuel + 1, i, l =>
    if i + 1 < l.length then
      rankOuter fuel (i + 1) (rankInner l.length i (i + 1) l)
    else l

/-- `RankAnswersByConfidence`: working on a copy of the input, repeatedly
move the largest remaining confidence to the front by pairwise swaps. -/
def rankAnswersByConfidence (answers : List AnswerResult) : List AnswerResult :=
  rankOuter answers.length 0 answers

/-- `QASearchResults` of `search_service.go`. -/
structure QASearchResults where
  answers : List AnswerResult
  strategy : String
  total : Nat
deriving DecidableEq, Inhabited

/-- Dedup-and-truncate loop of `SearchService.prepareCandidateChunks`
(`search_service.go:458-485`): a result is added when its chunk id has not
been seen and the candidate list is still below the limit. -/
def prepLoop (limit : Nat) : List SearchResult → List String → List ChunkWithMetadata →
    List String × List ChunkWithMetadata
  | [], seen, chunks => (seen, chunks)
  | r :: rest, seen, chunks =>
    if ¬ seen.contains r.id ∧ chunks.length < limit then
      prepLoop limit rest (r.id :: seen)
        (chunks ++ [{ text := r.chunkText,
                      metadata := { chunkID := r.id, title := r.contentTitle,
                                    contentType := r.contentType } }])
    else prepLoop limit rest seen chunks

/-- `SearchService.prepareCandidateChunks`: vector results first, then
full-text results, deduplicated by chunk id and capped at `limit`. -/
def prepareCandidateChunks (vectorResults textResults : List SearchResult)
    (limit : Nat) : List ChunkWithMetadata :=
  let afterVector := prepLoop limit vectorResults [] []
  (prepLoop limit textResults afterVector.1 afterVector.2).2

/-- `SearchService.QASearch` (`search_service.go:412-450`): retrieve
`3 · limit` candidates from each channel (the channels are supplied as
functions of their SQL `LIMIT`), extract answers, rank by confidence, and
truncate to `limit`. -/
def qaSearch (vchan tchan : Nat → List SearchResult)
    (llm : String → String → Except String LLMResponse)
    (query : String) (limit : Nat) : QASearchResults :=
  let candidateLimit := limit * 3
  let vectorResults := vchan candidateLimit
  let textResults := tchan candidateLimit
  let candidateChunks := prepareCandidateChunks vectorResults textResults candidateLimit
  let answers := extractAnswersFromChunks llm query candidateChunks
  let rankedAnswers := rankAnswersByConfidence answers
  let finalAnswers := if rankedAnswers.length > limit then rankedAnswers.take limit
                      else rankedAnswers
  { answers := finalAnswers, strategy := "qa-hybrid", total := finalAnswers.length }

/-! ### PDF text extraction (`text_extractor_service.go`) -/

/-- Abstract view of a PDF for `extractPDFText`: whether the reader fails,
whether the file is encrypted and whether the empty password decrypts it,
and per page either the extracted text or `none` when `GetPage`,
`extractor.New` or `ExtractText` fails (all three are skipped silently). -/
structure PdfFile where
  readerFails : Bool
  encrypted : Bool
  emptyPasswordWorks : Bool
  pages : List (Option String)
deriving DecidableEq, Inhabited

/-- `TextExtractorService.extractPDFText` (`text_extractor_service.go:47-99`):
fail on reader or decryption errors, skip unextractable pages, join page
texts with blank lines and trim. The function returns the trimmed
concatenation with no error even when it is empty. -/
def extractPDFText (pdf : PdfFile) : Except String String :=
  if pdf.readerFails then .error "failed to create PDF reader"
  else if pdf.encrypted ∧ ¬ pdf.emptyPasswordWorks then
    .error "PDF is password protected and cannot be decrypted"
  else
    .ok (String.mk (goTrim (pdf.pages.foldl
      (fun acc p => match p with
        | none => acc
        | some t => acc ++ t.data ++ '\n' :: ['\n']) [])))

/-! ### Lemmas about `fieldsAux` (Go `strings.Fields`) -/

/-- Splitting at an explicit separator character: the scanner emits the
fields to its left, then the fields to its right. -/
theorem fieldsAux_sep_append (sep : Char → Bool) {c : Char} (hc : sep c = true)
    (x y : List Char) :
    ∀ acc, fieldsAux sep (x ++ c :: y) acc = fieldsAux sep x acc ++ fieldsAux sep y [] := by
  induction x with
  | nil =>
    intro acc
    by_cases h : acc = [] <;> simp [fieldsAux, hc, h]
  | cons a x ih =>
    intro acc
    by_cases ha : sep a
    · by_cases h : acc = [] <;> simp [fieldsAux, ha, h, ih]
    · simp [fieldsAux, ha, ih]

/-- A run made only of separators contributes nothing but the flush of the
pending field. -/
theorem fieldsAux_all_sep (sep : Char → Bool) (sp : List Char)
    (hsp : ∀ c ∈ sp, sep c = true) :
    ∀ acc, fieldsAux sep sp acc = if acc = [] then [] else [acc.reverse] := by
  induction sp with
  | nil => intro acc; rfl
  | cons s sp ih =>
    intro acc
    have hs : sep s = true := hsp s (by simp)
    have ih' := ih (fun c hc => hsp c (by simp [hc]))
    by_cases h : acc = [] <;> simp [fieldsAux, hs, h, ih']

/-- Trailing separators do not change the fields. -/
theorem fieldsAux_append_all_sep (sep : Char → Bool) (x sp : List Char)
    (hsp : ∀ c ∈ sp, sep c = true) :
    ∀ acc, fieldsAux sep (x ++ sp) acc = fieldsAux sep x acc := by
  induction x with
  | nil =>
    intro acc
    by_cases h : acc = [] <;>
      simp [fieldsAux_all_sep sep sp hsp, fieldsAux, h]
  | cons a x ih =>
    intro acc
    by_cases ha : sep a
    · by_cases h : acc = [] <;> simp [fieldsAux, ha, h, ih]
    · simp [fieldsAux, ha, ih]

/-- A run without separators is one single field (together with the pending
accumulator). -/
theorem fieldsAux_no_sep (sep : Char → Bool) (w : List Char)
    (hw : ∀ c ∈ w, sep c = false) :
    ∀ acc, fieldsAux sep w acc =
      if acc = [] ∧ w = [] then [] else [acc.reverse ++ w] := by
  induction w with
  | nil =>
    intro acc
    by_cases h : acc = [] <;> simp [fieldsAux, h]
  | cons a w ih =>
    intro acc
    have ha : sep a = false := hw a (by simp)
    have ih' := ih (fun c hc => hw c (by simp [hc]))
    simp [fieldsAux, ha, ih']

/-- Every field is nonempty and contains no separator character. -/
theorem fieldsAux_mem (sep : Char → Bool) :
    ∀ (l acc : List Char), (∀ c ∈ acc, sep c = false) →
      ∀ w ∈ fieldsAux sep l acc, w ≠ [] ∧ ∀ c ∈ w, sep c = false := by
  intro l
  induction l with
  | nil =>
    intro acc hacc w hw
    by_cases h : acc = []
    · simp [fieldsAux, h] at hw
    · simp [fieldsAux, h] at hw
      subst hw
      exact ⟨by simpa using h, fun c hc => hacc c (by simpa using hc)⟩
  | cons a l ih =>
    intro acc hacc w hw
    by_cases ha : sep a
    · by_cases h : acc = []
      · rw [fieldsAux, if_pos ha, if_pos h] at hw
        exact ih [] (by simp) w hw
      · rw [fieldsAux, if_pos ha, if_neg h] at hw
        rcases List.mem_cons.mp hw with hw | hw
        · subst hw
          exact ⟨by simpa using h, fun c hc => hacc c (by simpa using hc)⟩
        · exact ih [] (by simp) w hw
    · rw [fieldsAux, if_neg ha] at hw
      refine ih (a :: acc) ?_ w hw
      intro c hc
      rcases List.mem_cons.mp hc with hc | hc
      · subst hc; simpa using ha
      · exact hacc c hc

/-- Fields of a space-joined list of nonempty space-free words are the words
themselves. -/
theorem fieldsBy_joinSpace (ws : List (List Char))
    (h : ∀ w ∈ ws, w ≠ [] ∧ ∀ c ∈ w, goSpace c = false) :
    fieldsBy goSpace (joinSpace ws) = ws := by
  induction ws with
  | nil => rfl
  | cons w ws ih =>
    match ws, ih with
    | [], _ =>
      have hw := h w (by simp)
      simp [joinSpace, fieldsBy, fieldsAux_no_sep goSpace w hw.2, hw.1]
    | w' :: ws', ih =>
      have hw := h w (by simp)
      have hsp : goSpace ' ' = true := by decide
      calc fieldsBy goSpace (joinSpace (w :: w' :: ws'))
          = fieldsAux goSpace (w ++ ' ' :: joinSpace (w' :: ws')) [] := rfl
        _ = fieldsAux goSpace w [] ++ fieldsAux goSpace (joinSpace (w' :: ws')) [] :=
            fieldsAux_sep_append goSpace hsp _ _ []
        _ = w :: (w' :: ws') := by
            rw [fieldsAux_no_sep goSpace w hw.2]
            have := ih (fun u hu => h u (by simp [hu]))
            simp [fieldsBy] at this
            simp [hw.1, this]

/-- Dropping leading whitespace does not change the fields. -/
theorem fieldsBy_trimLeft (l : List Char) :
    fieldsBy goSpace (trimLeft l) = fieldsBy goSpace l := by
  induction l with
  | nil => rfl
  | cons c cs ih =>
    by_cases hc : goSpace c
    · simpa [trimLeft, fieldsBy, fieldsAux, hc] using ih
    · simp [trimLeft, fieldsBy, fieldsAux, hc]

/-- Every list splits into its right-trimmed part and a whitespace tail. -/
theorem trimRight_decomp :
    ∀ m : List Char, ∃ sp, (∀ c ∈ sp, goSpace c = true) ∧ m = trimRight m ++ sp := by
  intro m
  induction m with
  | nil => exact ⟨[], by simp, rfl⟩
  | cons c cs ih =>
    obtain ⟨sp, hsp, hdecomp⟩ := ih
    rcases h : trimRight cs with _ | ⟨d, r⟩
    · rw [h] at hdecomp
      by_cases hc : goSpace c
      · refine ⟨c :: cs, ?_, by simp [trimRight, h, hc]⟩
        intro x hx
        rcases List.mem_cons.mp hx with rfl | hx
        · exact hc
        · rw [show cs = sp by simpa using hdecomp] at hx
          exact hsp x hx
      · exact ⟨sp, hsp, by rw [trimRight, h]; simp [hc]; simpa using hdecomp⟩
    · refine ⟨sp, hsp, ?_⟩
      rw [trimRight, h]
      conv_lhs => rw [hdecomp, h]
      simp

/-- Dropping trailing whitespace does not change the fields. -/
theorem fieldsBy_trimRight (l : List Char) :
    fieldsBy goSpace (trimRight l) = fieldsBy goSpace l := by
  obtain ⟨sp, hsp, hdecomp⟩ := trimRight_decomp l
  conv_rhs => rw [hdecomp]
  exact (fieldsAux_append_all_sep goSpace (trimRight l) sp hsp []).symm

/-- Go `strings.TrimSpace` does not change the fields. -/
theorem fieldsBy_goTrim (l : List Char) :
    fieldsBy goSpace (goTrim l) = fieldsBy goSpace l := by
  rw [goTrim, fieldsBy_trimRight, fieldsBy_trimLeft]

/-- Token count of a string built from an explicit character list. -/
theorem countTokens_mk (l : List Char) :
    countTokens (String.mk l) = (fieldsBy goSpace l).length := by
  simp [countTokens, strFields, fieldsChars]

/-- Token count of a string in terms of its characters. -/
theorem countTokens_data (s : String) :
    countTokens s = (fieldsBy goSpace s.data).length := by
  simp [countTokens, strFields, fieldsChars]

/-- Fields of the chunk builder after one sentence append: the builder is
empty or ends in the separating space the code writes after every
sentence, so the fields are additive. -/
theorem fieldsBy_append_sentence (cur s : List Char)
    (hcur : cur = [] ∨ ∃ w, cur = w ++ [' ']) :
    fieldsBy goSpace (cur ++ s ++ [' ']) =
      fieldsBy goSpace cur ++ fieldsBy goSpace s := by
  have hsp1 : ∀ c ∈ [' '], goSpace c = true := by decide
  rcases hcur with h | ⟨w, hw⟩
  · subst h
    simpa using fieldsAux_append_all_sep goSpace s [' '] hsp1 []
  · subst hw
    have hspc : goSpace ' ' = true := by decide
    calc fieldsBy goSpace ((w ++ [' ']) ++ s ++ [' '])
        = fieldsAux goSpace (w ++ ' ' :: (s ++ [' '])) [] := by
          simp [fieldsBy]
      _ = fieldsAux goSpace w [] ++ fieldsAux goSpace (s ++ [' ']) [] :=
          fieldsAux_sep_append goSpace hspc _ _ []
      _ = fieldsBy goSpace w ++ fieldsBy goSpace s := by
          rw [fieldsAux_append_all_sep goSpace s [' '] hsp1 []]; rfl
      _ = fieldsBy goSpace (w ++ [' ']) ++ fieldsBy goSpace s := by
          rw [show fieldsBy goSpace (w ++ [' ']) = fieldsBy goSpace w from
            fieldsAux_append_all_sep goSpace w [' '] hsp1 []]

/-! ### Termination and token bounds of the overlap window loop -/

/-- With `overlap < chunkSize`, every iteration of the window loop advances
`start` by `chunkSize - overlap ≥ 1`, so fuel exceeding the remaining
distance is never exhausted. -/
theorem wordWindowLoop_isSome (words : List (List Char)) (chunkSize overlap : Nat)
    (hov : overlap < chunkSize) :
    ∀ (fuel start : Nat), words.length - start < fuel →
      (wordWindowLoop words chunkSize overlap fuel start).isSome := by
  intro fuel
  induction fuel with
  | zero => intro start h; omega
  | succ fuel ih =>
    intro start h
    rw [wordWindowLoop]
    by_cases hs : start < words.length
    · simp only [if_pos hs]
      by_cases he : min (start + chunkSize) words.length = words.length
      · simp [he]
      · have hlt : start + chunkSize < words.length := by omega
        have hmin : min (start + chunkSize) words.length = start + chunkSize := by omega
        simp only [if_neg he, Option.isSome_map']
        refine ih _ ?_
        rw [hmin]
        split
        · omega
        · omega
    · simp [hs]

/-- Claim C10 — the word-window chunking loop of `chunkWithOverlapWordBased`
(and the identically structured token loop of `chunkWithOverlapTokenized`)
terminates whenever `overlap < chunkSize`: fuel equal to the word count
plus one is never exhausted, because each iteration advances the window
start by `chunkSize - overlap ≥ 1` (with the start clamped to at least 1). -/
theorem c10_chunkWithOverlap_terminates (text : String) (chunkSize overlap : Nat)
    (hov : overlap < chunkSize) :
    (wordWindowLoop (fieldsChars text.data) chunkSize overlap
      ((fieldsChars text.data).length + 1) 0).isSome :=
  wordWindowLoop_isSome (fieldsChars text.data) chunkSize overlap hov _ 0 (by omega)

/-- Witness for C10 at a concrete input. -/
theorem c10_chunkWithOverlap_terminates_witness :
    2 < 5 ∧ (wordWindowLoop (fieldsChars ("a b c d e f g" : String).data) 5 2
      ((fieldsChars ("a b c d e f g" : String).data).length + 1) 0).isSome :=
  ⟨by norm_num, c10_chunkWithOverlap_terminates "a b c d e f g" 5 2 (by norm_num)⟩

/-- Every chunk emitted by the window loop spans at most `chunkSize` words,
and words taken from a fields decomposition are nonempty and space-free, so
its token count is the window length. -/
theorem wordWindowLoop_token_bound (words : List (List Char)) (chunkSize overlap : Nat)
    (hwords : ∀ w ∈ words, w ≠ [] ∧ ∀ c ∈ w, goSpace c = false) :
    ∀ (fuel start : Nat) (out : List String),
      wordWindowLoop words chunkSize overlap fuel start = some out →
      ∀ ch ∈ out, countTokens ch ≤ chunkSize := by
  intro fuel
  induction fuel with
  | zero => intro start out h; exact absurd h (by simp [wordWindowLoop])
  | succ fuel ih =>
    intro start out h ch hch
    have hwin : ∀ (a b : Nat),
        countTokens (String.mk (joinSpace ((words.drop a).take b))) = ((words.drop a).take b).length := by
      intro a b
      rw [countTokens_mk, fieldsBy_joinSpace]
      intro w hw
      exact hwords w (List.mem_of_mem_drop (List.mem_of_mem_take hw))
    rw [wordWindowLoop] at h
    by_cases hs : start < words.length
    · rw [if_pos hs] at h
      by_cases he : min (start + chunkSize) words.length = words.length
      · rw [if_pos he] at h
        obtain rfl : [String.mk (joinSpace ((words.drop start).take
            (min (start + chunkSize) words.length - start)))] = out := by
          simpa using h
        rcases List.mem_singleton.mp hch with rfl
        rw [hwin]
        calc ((words.drop start).take (min (start + chunkSize) words.length - start)).length
            ≤ min (start + chunkSize) words.length - start := by
              simp
          _ ≤ chunkSize := by omega
      · rw [if_neg he] at h
        rcases Option.map_eq_some'.mp h with ⟨out', hout', rfl⟩
        rcases List.mem_cons.mp hch with rfl | hch'
        · rw [hwin]
          calc ((words.drop start).take (min (start + chunkSize) words.length - start)).length
              ≤ min (start + chunkSize) words.length - start := by
                simp
            _ ≤ chunkSize := by omega
        · exact ih _ out' hout' ch hch'
    · rw [if_neg hs] at h
      obtain rfl : ([] : List String) = out := by simpa using h
      simp at hch

/-- Every chunk produced by `ChunkWithOverlap` in the word-based fallback
has at most `chunkSize` tokens. -/
theorem chunkWithOverlap_token_bound (s : String) (chunkSize overlap : Nat) :
    ∀ ch ∈ chunkWithOverlap s chunkSize overlap, countTokens ch ≤ chunkSize := by
  intro ch hch
  rw [chunkWithOverlap, chunkWithOverlapWordBased] at hch
  by_cases hfit : (fieldsChars s.data).length ≤ chunkSize
  · rw [if_pos hfit] at hch
    rcases List.mem_singleton.mp hch with rfl
    calc countTokens ch = (fieldsBy goSpace ch.data).length := countTokens_data ch
      _ ≤ chunkSize := hfit
  · rw [if_neg hfit] at hch
    rcases hloop : wordWindowLoop (fieldsChars s.data) chunkSize overlap
        ((fieldsChars s.data).length + 1) 0 with _ | out
    · rw [hloop] at hch
      simp at hch
    · rw [hloop] at hch
      refine wordWindowLoop_token_bound (fieldsChars s.data) chunkSize overlap ?_ _ 0 out hloop ch (by simpa using hch)
      intro w hw
      exact fieldsAux_mem goSpace s.data [] (by simp) w hw

/-! ### Claim C3: token bound of `SmartChunkBySentences` -/

/-- When the pending chunk is empty, the oversize inner loop never takes its
join branch: it emits every sub-chunk unchanged and keeps the empty pending
chunk. -/
theorem oversizeEmit_nil (subs : List String) :
    ∀ (i : Nat) (tok : Nat) (acc : List String),
      oversizeEmit subs i [] tok acc = ([], tok, acc ++ subs) := by
  induction subs with
  | nil => intro i tok acc; simp [oversizeEmit]
  | cons sub rest ih =>
    intro i tok acc
    rw [oversizeEmit, if_neg (by simp)]
    rw [ih]
    simp

/-- Invariant-carrying bound for the main loop of `SmartChunkBySentences`:
the running token count is the field count of the pending chunk, the
pending chunk is empty or ends in the separating space, the running count
is within budget, and every emitted chunk is within budget. -/
theorem smartLoop_token_bound (mt : Nat) :
    ∀ (ss : List String) (cur : List Char) (tok : Nat) (acc : List String),
      tok = (fieldsBy goSpace cur).length →
      (cur = [] ∨ ∃ w, cur = w ++ [' ']) →
      tok ≤ mt →
      (∀ ch ∈ acc, countTokens ch ≤ mt) →
      ∀ ch ∈ smartLoop mt ss cur tok acc, countTokens ch ≤ mt := by
  intro ss
  induction ss with
  | nil =>
    intro cur tok acc htok hend hle hacc ch hch
    rw [smartLoop] at hch
    by_cases hcur : cur ≠ []
    · rw [if_pos hcur] at hch
      rcases List.mem_append.mp hch with hch | hch
      · exact hacc ch hch
      · rcases List.mem_singleton.mp hch with rfl
        rw [countTokens_mk, fieldsBy_goTrim]
        omega
    · rw [if_neg hcur] at hch
      exact hacc ch hch
  | cons s rest ih =>
    intro cur tok acc htok hend hle hacc ch hch
    rw [smartLoop] at hch
    set st := countTokens s with hst
    by_cases hflush : tok + st > mt ∧ cur ≠ []
    · -- flush branch
      rw [if_pos hflush] at hch
      have hflushed : countTokens (String.mk (goTrim cur)) ≤ mt := by
        rw [countTokens_mk, fieldsBy_goTrim]; omega
      have hacc' : ∀ c ∈ acc ++ [String.mk (goTrim cur)], countTokens c ≤ mt := by
        intro c hc
        rcases List.mem_append.mp hc with hc | hc
        · exact hacc c hc
        · rcases List.mem_singleton.mp hc with rfl; exact hflushed
      by_cases hover : st > mt
      · rw [if_pos hover] at hch
        dsimp only at hch
        rw [oversizeEmit_nil] at hch
        dsimp only at hch
        refine ih [] 0 _ (by simp [fieldsBy, fieldsAux]) (Or.inl rfl) (by omega) ?_ ch hch
        intro c hc
        rcases List.mem_append.mp hc with hc | hc
        · exact hacc' c hc
        · exact chunkWithOverlap_token_bound s mt 50 c hc
      · rw [if_neg hover] at hch
        dsimp only at hch
        refine ih ([] ++ s.data ++ [' ']) (0 + st) _ ?_ ?_ (by omega) hacc' ch hch
        · rw [fieldsBy_append_sentence [] s.data (Or.inl rfl)]
          simp [fieldsBy, fieldsAux, hst, countTokens_data]
        · exact Or.inr ⟨[] ++ s.data, rfl⟩
    · -- no flush
      rw [if_neg hflush] at hch
      have hcurnil : tok + st > mt → cur = [] := by
        intro hgt
        by_contra hne
        exact hflush ⟨hgt, hne⟩
      by_cases hover : st > mt
      · -- a single oversize sentence: the pending chunk must be empty
        have hcur0 : cur = [] := hcurnil (by omega)
        subst hcur0
        have htok0 : tok = 0 := by simpa [fieldsBy, fieldsAux] using htok
        rw [if_pos hover] at hch
        dsimp only at hch
        rw [oversizeEmit_nil] at hch
        dsimp only at hch
        refine ih [] tok _ htok (Or.inl rfl) hle ?_ ch hch
        intro c hc
        rcases List.mem_append.mp hc with hc | hc
        · exact hacc c hc
        · exact chunkWithOverlap_token_bound s mt 50 c hc
      · rw [if_neg hover] at hch
        dsimp only at hch
        have hbound : tok + st ≤ mt := by
          by_cases hgt : tok + st > mt
          · have := hcurnil hgt
            subst this
            have : tok = 0 := by simpa [fieldsBy, fieldsAux] using htok
            omega
          · omega
        refine ih (cur ++ s.data ++ [' ']) (tok + st) _ ?_ ?_ hbound hacc ch hch
        · rw [fieldsBy_append_sentence cur s.data hend, List.length_append, htok,
            hst, countTokens_data]
        · exact Or.inr ⟨cur ++ s.data, by simp⟩

/-- Claim C3 — every chunk produced by `SmartChunkBySentences` has token
count at most `max_tokens`; in particular the oversize-sentence overlap
windows also stay within `max_tokens`, hence within `max_tokens + 50`. -/
theorem c3_smartChunk_token_bound (text : String) (maxTokens : Nat)
    (h : 0 < maxTokens) :
    ∀ ch ∈ smartChunkBySentences text maxTokens, countTokens ch ≤ maxTokens := by
  have _ := h
  exact smartLoop_token_bound maxTokens (smartSentenceSplit text) [] 0 []
    (by simp [fieldsBy, fieldsAux]) (Or.inl rfl) (by omega) (by simp)

/-- Witness for C3 at a concrete input. -/
theorem c3_smartChunk_token_bound_witness :
    0 < 5 ∧ ∀ ch ∈ smartChunkBySentences
      "The quick brown fox jumps over the dog. A second sentence arrives here now." 5,
      countTokens ch ≤ 5 :=
  ⟨by norm_num,
    c3_smartChunk_token_bound
      "The quick brown fox jumps over the dog. A second sentence arrives here now." 5
      (by norm_num)⟩

/-! ### Claim C7: what concatenating the chunks reproduces -/

/-- Shape of a sentence emitted by `smartSentenceSplit`: nonempty, and its
first and last characters are not whitespace (both come out of Go
`strings.TrimSpace`). -/
def sentGood (p : List Char) : Prop :=
  p ≠ [] ∧ (∀ c, p.head? = some c → goSpace c = false) ∧
    (∀ c, p.getLast? = some c → goSpace c = false)

/-- The head surviving `dropWhile goSpace` is not whitespace. -/
theorem head?_trimLeft (l : List Char) (c : Char)
    (h : (trimLeft l).head? = some c) : goSpace c = false := by
  induction l with
  | nil => simp [trimLeft] at h
  | cons d l ih =>
    by_cases hd : goSpace d
    · exact ih (by simpa [trimLeft, hd] using h)
    · rw [trimLeft, List.dropWhile_cons, if_neg (by simp [hd])] at h
      simp at h
      rw [← h]
      simpa using hd

/-- Right-trimming preserves the head when anything is left. -/
theorem head?_trimRight (m : List Char) (c : Char)
    (h : (trimRight m).head? = some c) : m.head? = some c := by
  cases m with
  | nil => simp [trimRight] at h
  | cons d cs =>
    rw [trimRight] at h
    rcases htr : trimRight cs with _ | ⟨e, r⟩ <;> rw [htr] at h
    · by_cases hd : goSpace d
      · simp [hd] at h
      · simp [hd] at h
        simp [h]
    · simp at h
      simp [h]

/-- The last character surviving right-trimming is not whitespace. -/
theorem getLast?_trimRight (m : List Char) (c : Char)
    (h : (trimRight m).getLast? = some c) : goSpace c = false := by
  induction m with
  | nil => simp [trimRight] at h
  | cons d cs ih =>
    rw [trimRight] at h
    rcases htr : trimRight cs with _ | ⟨e, r⟩ <;> rw [htr] at h
    · by_cases hd : goSpace d
      · simp [hd] at h
      · simp [hd] at h
        rw [← h]
        simpa using hd
    · rw [List.getLast?_cons_cons] at h
      exact ih (by rw [htr]; exact h)

/-- A nonempty output of Go `strings.TrimSpace` is a good sentence. -/
theorem goTrim_sentGood (l : List Char) (h : goTrim l ≠ []) : sentGood (goTrim l) := by
  refine ⟨h, ?_, ?_⟩
  · intro c hc
    exact head?_trimLeft l c (head?_trimRight (trimLeft l) c hc)
  · intro c hc
    exact getLast?_trimRight (trimLeft l) c hc

/-- Every sentence assembled by `buildSentences` is the trim of a part
followed by the trim of a match. -/
theorem buildSentences_shape (ms : List (List Char)) :
    ∀ (i : Nat) (ps : List (List Char)), ∀ s ∈ buildSentences ms i ps,
      ∃ p tm, s.data = goTrim p ++ tm ∧ goTrim p ≠ [] ∧
        (tm = [] ∨ ∃ m, tm = goTrim m) := by
  intro i ps
  induction ps generalizing i with
  | nil => intro s hs; simp [buildSentences] at hs
  | cons p ps ih =>
    intro s hs
    rw [buildSentences] at hs
    by_cases hp : goTrim p = []
    · rw [if_pos hp] at hs
      exact ih (i + 1) s hs
    · rw [if_neg hp] at hs
      by_cases hlen : utf8Len (goTrim p ++
          (if i < ms.length then goTrim (ms.getD i []) else [])) > 10
      · rw [if_pos hlen] at hs
        rcases List.mem_cons.mp hs with rfl | hs
        · refine ⟨p, _, rfl, hp, ?_⟩
          by_cases him : i < ms.length
          · exact Or.inr ⟨ms.getD i [], by rw [if_pos him]⟩
          · exact Or.inl (by rw [if_neg him])
        · exact ih (i + 1) s hs
      · rw [if_neg hlen] at hs
        exact ih (i + 1) s hs

/-- Every sentence returned by `smartSentenceSplit` is good: nonempty with
no whitespace at either end. -/
theorem smartSentenceSplit_good (text : String) :
    ∀ s ∈ smartSentenceSplit text, sentGood s.data := by
  intro s hs
  obtain ⟨p, tm, hdata, hp, htm⟩ :=
    buildSentences_shape (sentScanA (goTrim (collapseWS (text.data.map crlfToSpace))) [] .text).2
      0 (sentScanA (goTrim (collapseWS (text.data.map crlfToSpace))) [] .text).1 s hs
  have hgood := goTrim_sentGood p hp
  refine ⟨by simp [hdata, hp], ?_, ?_⟩
  · intro c hc
    rw [hdata] at hc
    rcases hq : goTrim p with _ | ⟨d, q⟩
    · exact absurd hq hp
    · rw [hq] at hc
      simp at hc
      exact hgood.2.1 c (by rw [hq, ← hc]; rfl)
  · intro c hc
    rw [hdata] at hc
    by_cases htm0 : tm = []
    · subst htm0
      simp at hc
      exact hgood.2.2 c hc
    · rw [List.getLast?_append_of_ne_nil _ htm0] at hc
      rcases htm with rfl | ⟨m, rfl⟩
      · exact absurd rfl htm0
      · exact getLast?_trimRight (trimLeft m) c hc

/-- The pending chunk of `smartLoop` as the concatenation of the pending
sentences, each followed by the space the builder writes. -/
def flatPend : List (List Char) → List Char
  | [] => []
  | p :: ps => p ++ ' ' :: flatPend ps

/-- Appending one more pending sentence. -/
theorem flatPend_append (ps : List (List Char)) (q : List Char) :
    flatPend (ps ++ [q]) = flatPend ps ++ q ++ [' '] := by
  induction ps with
  | nil => simp [flatPend]
  | cons p ps ih => simp [flatPend, ih]

/-- The pending chunk is empty exactly when no sentence is pending. -/
theorem flatPend_eq_nil (ps : List (List Char)) : flatPend ps = [] ↔ ps = [] := by
  cases ps with
  | nil => simp [flatPend]
  | cons p ps => simp [flatPend]

/-- The pending chunk is the space-join plus one trailing space. -/
theorem flatPend_eq_joinSpace (ps : List (List Char)) (h : ps ≠ []) :
    flatPend ps = joinSpace ps ++ [' '] := by
  induction ps with
  | nil => exact absurd rfl h
  | cons p ps ih =>
    cases ps with
    | nil => simp [flatPend, joinSpace]
    | cons q ps' =>
      have hrec := ih (by simp)
      simp only [flatPend, joinSpace] at hrec ⊢
      rw [hrec]
      simp

/-- Space-join of an append splits on the separating space. -/
theorem joinSpace_append (xs ys : List (List Char)) (hx : xs ≠ []) (hy : ys ≠ []) :
    joinSpace (xs ++ ys) = joinSpace xs ++ ' ' :: joinSpace ys := by
  induction xs with
  | nil => exact absurd rfl hx
  | cons x xs ih =>
    cases xs with
    | nil =>
      cases ys with
      | nil => exact absurd rfl hy
      | cons y ys' => simp [joinSpace]
    | cons x' xs' =>
      have hrec := ih (by simp)
      show joinSpace (x :: x' :: (xs' ++ ys)) =
        (x ++ ' ' :: joinSpace (x' :: xs')) ++ ' ' :: joinSpace ys
      rw [show joinSpace (x :: x' :: (xs' ++ ys)) =
        x ++ ' ' :: joinSpace (x' :: (xs' ++ ys)) from rfl]
      rw [show (x' :: (xs' ++ ys)) = (x' :: xs') ++ ys from rfl, hrec]
      simp

/-- Replacing a sublist by its own space-join does not change the join. -/
theorem joinSpace_collapse (xs ys : List (List Char)) (hy : ys ≠ []) :
    joinSpace (xs ++ [joinSpace ys]) = joinSpace (xs ++ ys) := by
  cases xs with
  | nil =>
    simp [joinSpace]
  | cons x xs' =>
    rw [joinSpace_append (x :: xs') [joinSpace ys] (by simp) (by simp),
        joinSpace_append (x :: xs') ys (by simp) hy]
    simp [joinSpace]

/-- Replacing a middle sublist by its own space-join does not change the
join. -/
theorem joinSpace_collapse_middle (xs ys zs : List (List Char)) (hy : ys ≠ []) :
    joinSpace (xs ++ [joinSpace ys] ++ zs) = joinSpace (xs ++ ys ++ zs) := by
  cases zs with
  | nil => simpa using joinSpace_collapse xs ys hy
  | cons z zs' =>
    rw [joinSpace_append (xs ++ [joinSpace ys]) (z :: zs') (by simp) (by simp),
        joinSpace_append (xs ++ ys) (z :: zs') (by rcases ys with _ | _ <;> simp_all) (by simp),
        joinSpace_collapse xs ys hy]

/-- The space-join of good sentences is nonempty. -/
theorem joinSpace_ne_nil (ps : List (List Char)) (h : ps ≠ [])
    (hgood : ∀ p ∈ ps, sentGood p) : joinSpace ps ≠ [] := by
  cases ps with
  | nil => exact absurd rfl h
  | cons p ps' =>
    have hp := (hgood p (by simp)).1
    cases ps' with
    | nil => simpa [joinSpace] using hp
    | cons q ps'' => simp [joinSpace]

/-- The head of a space-join of good sentences is not whitespace. -/
theorem joinSpace_head (ps : List (List Char)) (h : ps ≠ [])
    (hgood : ∀ p ∈ ps, sentGood p) :
    ∀ c, (joinSpace ps).head? = some c → goSpace c = false := by
  cases ps with
  | nil => exact absurd rfl h
  | cons p ps' =>
    have hp := hgood p (by simp)
    intro c hc
    cases ps' with
    | nil => exact hp.2.1 c hc
    | cons q ps'' =>
      rw [show joinSpace (p :: q :: ps'') = p ++ ' ' :: joinSpace (q :: ps'') from rfl] at hc
      rcases hpd : p with _ | ⟨d, p'⟩
      · exact absurd hpd hp.1
      · rw [hpd] at hc
        simp at hc
        exact hp.2.1 c (by rw [hpd, ← hc]; rfl)

/-- The last character of a space-join of good sentences is not
whitespace. -/
theorem joinSpace_getLast (ps : List (List Char)) (h : ps ≠ [])
    (hgood : ∀ p ∈ ps, sentGood p) :
    ∀ c, (joinSpace ps).getLast? = some c → goSpace c = false := by
  induction ps with
  | nil => exact absurd rfl h
  | cons p ps' ih =>
    intro c hc
    cases ps' with
    | nil => exact (hgood p (by simp)).2.2 c hc
    | cons q ps'' =>
      rw [show joinSpace (p :: q :: ps'') = p ++ ' ' :: joinSpace (q :: ps'') from rfl] at hc
      have hne : joinSpace (q :: ps'') ≠ [] :=
        joinSpace_ne_nil _ (by simp) (fun r hr => hgood r (by simp [hr]))
      rw [List.getLast?_append_of_ne_nil _ (by simp)] at hc
      rw [show (' ' :: joinSpace (q :: ps'')).getLast? = (joinSpace (q :: ps'')).getLast? by
        rcases hj : joinSpace (q :: ps'') with _ | ⟨e, r⟩
        · exact absurd hj hne
        · exact List.getLast?_cons_cons] at hc
      exact ih (by simp) (fun r hr => hgood r (by simp [hr])) c hc

/-- Leading non-whitespace makes `trimLeft` the identity. -/
theorem trimLeft_of_head (x : List Char)
    (h : ∀ c, x.head? = some c → goSpace c = false) : trimLeft x = x := by
  cases x with
  | nil => rfl
  | cons c x' =>
    have := h c rfl
    simp [trimLeft, this]

/-- A trailing space disappears under `trimRight`. -/
theorem trimRight_append_space (x : List Char) :
    trimRight (x ++ [' ']) = trimRight x := by
  induction x with
  | nil => simp [trimRight]; decide
  | cons c x' ih =>
    show trimRight (c :: (x' ++ [' '])) = trimRight (c :: x')
    rw [trimRight, trimRight, ih]

/-- Trailing non-whitespace makes `trimRight` the identity. -/
theorem trimRight_of_getLast (x : List Char)
    (h : ∀ c, x.getLast? = some c → goSpace c = false) : trimRight x = x := by
  induction x with
  | nil => rfl
  | cons c x' ih =>
    cases x' with
    | nil =>
      have := h c rfl
      simp [trimRight, this]
    | cons d x'' =>
      have hrec : trimRight (d :: x'') = d :: x'' :=
        ih (fun e he => h e (by rw [List.getLast?_cons_cons]; exact he))
      rw [trimRight, hrec]

/-- Trimming the pending chunk recovers exactly the space-join of the
pending sentences. -/
theorem goTrim_flatPend (ps : List (List Char)) (h : ps ≠ [])
    (hgood : ∀ p ∈ ps, sentGood p) :
    goTrim (flatPend ps) = joinSpace ps := by
  rw [goTrim, flatPend_eq_joinSpace ps h]
  rw [trimLeft_of_head _ ?_]
  · rw [trimRight_append_space, trimRight_of_getLast _ (joinSpace_getLast ps h hgood)]
  · intro c hc
    have hne := joinSpace_ne_nil ps h hgood
    rcases hj : joinSpace ps with _ | ⟨d, r⟩
    · exact absurd hj hne
    · rw [hj] at hc
      simp at hc
      exact joinSpace_head ps h hgood c (by rw [hj, ← hc]; rfl)

/-- Content preservation of the main chunking loop: as long as no sentence
is oversize, the space-join of everything the loop will ever emit equals
the space-join of the already-emitted chunks, the pending sentences and the
remaining sentences. -/
theorem smartLoop_concat (mt : Nat) :
    ∀ (ss : List String) (pend : List (List Char)) (tok : Nat) (acc : List String),
      (∀ s ∈ ss, countTokens s ≤ mt) →
      (∀ s ∈ ss, sentGood s.data) →
      (∀ p ∈ pend, sentGood p) →
      joinSpace ((smartLoop mt ss (flatPend pend) tok acc).map String.data)
        = joinSpace (acc.map String.data ++ pend ++ ss.map String.data) := by
  intro ss
  induction ss with
  | nil =>
    intro pend tok acc hcount hgoodss hgood
    rw [smartLoop]
    by_cases hpend : pend = []
    · subst hpend
      simp [flatPend]
    · rw [if_pos (by simpa [flatPend_eq_nil] using hpend)]
      rw [goTrim_flatPend pend hpend hgood]
      have : (acc ++ [String.mk (joinSpace pend)]).map String.data
          = acc.map String.data ++ [joinSpace pend] := by simp
      rw [this, joinSpace_collapse _ pend hpend]
      simp
  | cons s rest ih =>
    intro pend tok acc hcount hgoodss hgood
    rw [smartLoop]
    have hst : countTokens s ≤ mt := hcount s (by simp)
    have hover : ¬ countTokens s > mt := by omega
    rw [if_neg hover]
    have hgs : sentGood s.data := hgoodss s (by simp)
    have hcount' : ∀ u ∈ rest, countTokens u ≤ mt := fun u hu => hcount u (by simp [hu])
    have hgoodss' : ∀ u ∈ rest, sentGood u.data := fun u hu => hgoodss u (by simp [hu])
    by_cases hflush : tok + countTokens s > mt ∧ flatPend pend ≠ []
    · rw [if_pos hflush]
      dsimp only
      have hpend : pend ≠ [] := by
        intro hp
        exact hflush.2 (by simp [hp, flatPend])
      have hcur : ([] : List Char) ++ s.data ++ [' '] = flatPend [s.data] := by
        simp [flatPend]
      rw [hcur]
      rw [ih [s.data] (0 + countTokens s) (acc ++ [String.mk (goTrim (flatPend pend))])
        hcount' hgoodss' (by intro p hp; rcases List.mem_singleton.mp hp with rfl; exact hgs)]
      rw [goTrim_flatPend pend hpend hgood]
      have hmap : (acc ++ [String.mk (joinSpace pend)]).map String.data
          = acc.map String.data ++ [joinSpace pend] := by simp
      rw [hmap]
      rw [show acc.map String.data ++ [joinSpace pend] ++ [s.data] ++ rest.map String.data
          = acc.map String.data ++ [joinSpace pend] ++ ([s.data] ++ rest.map String.data) by simp]
      rw [joinSpace_collapse_middle _ pend _ hpend]
      simp
    · rw [if_neg hflush]
      dsimp only
      have hcur : flatPend pend ++ s.data ++ [' '] = flatPend (pend ++ [s.data]) := by
        rw [flatPend_append]
      rw [hcur]
      rw [ih (pend ++ [s.data]) (tok + countTokens s) acc hcount' hgoodss' ?_]
      · simp
      · intro p hp
        rcases List.mem_append.mp hp with hp | hp
        · exact hgood p hp
        · rcases List.mem_singleton.mp hp with rfl
          exact hgs

/-- Claim C7 (amended) — when no sentence exceeds `max_tokens` (so the
overlap-window path is never taken and no overlap tokens exist to remove),
concatenating the chunks of `SmartChunkBySentences` in order reproduces
the space-join of the sentences `smartSentenceSplit` retained, in order. -/
theorem c7_concat_retained (text : String) (mt : Nat)
    (h : ∀ s ∈ smartSentenceSplit text, countTokens s ≤ mt) :
    String.mk (joinSpace ((smartChunkBySentences text mt).map String.data))
      = String.mk (joinSpace ((smartSentenceSplit text).map String.data)) := by
  rw [smartChunkBySentences]
  have := smartLoop_concat mt (smartSentenceSplit text) [] 0 []
    h (smartSentenceSplit_good text) (by simp)
  simp only [flatPend, List.map_nil, List.nil_append, List.append_nil] at this
  rw [this]

/-- The whitespace normalisation of §4.C step 1 (CR/LF to spaces, collapse
whitespace runs, trim), the reading of "whitespace-normalised input" in the
round-trip claim. -/
def wsNormalize (s : String) : String :=
  String.mk (goTrim (collapseWS (s.data.map crlfToSpace)))

/-- Concatenation of chunks in order (single separating spaces). -/
def concatChunks (ls : List String) : String :=
  String.mk (joinSpace (ls.map String.data))

/-- Counterexample to C7 as stated: the sentence `"Go now."` has only 7
bytes, so `smartSentenceSplit` discards it, and the concatenation of the
chunks is missing it; no overlap token exists to remove because no sentence
exceeds 400 tokens. -/
theorem c7_counterexample :
    concatChunks (smartChunkBySentences
        "Go now. The quick brown fox jumps over the lazy dog." 400)
      ≠ wsNormalize "Go now. The quick brown fox jumps over the lazy dog." := by
  decide

/-- Witness for the amended C7 at a concrete input. -/
theorem c7_concat_retained_witness :
    (∀ s ∈ smartSentenceSplit "The quick brown fox jumps. Another fine sentence follows.",
        countTokens s ≤ 400) ∧
    String.mk (joinSpace ((smartChunkBySentences
        "The quick brown fox jumps. Another fine sentence follows." 400).map String.data))
      = String.mk (joinSpace ((smartSentenceSplit
        "The quick brown fox jumps. Another fine sentence follows.").map String.data)) :=
  ⟨by decide,
    c7_concat_retained "The quick brown fox jumps. Another fine sentence follows." 400
      (by decide)⟩

/-! ### Claim C5: what `RankAnswersByConfidence` computes -/

/-- One comparison of the inner ranking loop, carried functionally: the
running maximum and the elements displaced past position `i` so far. -/
def selStep (p : AnswerResult × List AnswerResult) (y : AnswerResult) :
    AnswerResult × List AnswerResult :=
  if p.1.confidence < y.confidence then (y, p.2 ++ [p.1]) else (p.1, p.2 ++ [y])

/-- One full inner pass over the suffix after position `i`. -/
def selPass (x : AnswerResult) (rest : List AnswerResult) :
    AnswerResult × List AnswerResult :=
  rest.foldl selStep (x, [])

/-- The displaced list of a fold of `selStep` grows by one per element. -/
theorem foldl_selStep_length (rest : List AnswerResult) :
    ∀ (c : AnswerResult) (acc : List AnswerResult),
      (rest.foldl selStep (c, acc)).2.length = acc.length + rest.length := by
  induction rest with
  | nil => intro c acc; simp
  | cons y rest ih =>
    intro c acc
    rw [List.foldl_cons, selStep]
    split <;> simp [ih] <;> omega

/-- Selection sort by descending confidence, the functional reading of the
double swap loop of `RankAnswersByConfidence`. -/
def selSort : List AnswerResult → List AnswerResult
  | [] => []
  | [x] => [x]
  | x :: y :: rest =>
    (selPass x (y :: rest)).1 :: selSort (selPass x (y :: rest)).2
termination_by l => l.length
decreasing_by
  have h := foldl_selStep_length (y :: rest) x []
  simp only [List.length_nil, Nat.zero_add, List.length_cons] at h
  simp only [selPass, List.length_cons]
  omega

/-- Setting the element right after a prefix. -/
theorem set_after_append (F : List AnswerResult) (c v : AnswerResult)
    (Z : List AnswerResult) : (F ++ c :: Z).set F.length v = F ++ v :: Z := by
  induction F with
  | nil => rfl
  | cons f F ih => simp [List.set, ih]

/-- Reading the element right after a prefix. -/
theorem getD_after_append (F : List AnswerResult) (c : AnswerResult)
    (Z : List AnswerResult) (d : AnswerResult) :
    (F ++ c :: Z).getD F.length d = c := by
  induction F with
  | nil => rfl
  | cons f F ih => simpa [List.getD] using ih

/-- The inner loop of `RankAnswersByConfidence` computes one `selStep` fold:
position `i` holds the running maximum and positions `i+1 .. j-1` hold the
displaced elements. -/
theorem rankInner_spec (R : List AnswerResult) :
    ∀ (fuel : Nat) (F P : List AnswerResult) (c : AnswerResult),
      R.length ≤ fuel →
      rankInner fuel F.length (F.length + 1 + P.length) (F ++ c :: (P ++ R))
        = F ++ (R.foldl selStep (c, P)).1 :: (R.foldl selStep (c, P)).2 := by
  induction R with
  | nil =>
    intro fuel F P c hfuel
    cases fuel with
    | zero => simp [rankInner]
    | succ fuel =>
      rw [rankInner, if_neg (by simp; omega)]
      simp
  | cons y R ih =>
    intro fuel F P c hfuel
    cases fuel with
    | zero => simp at hfuel
    | succ fuel =>
      rw [rankInner, if_pos (by simp; omega)]
      have hgi : (F ++ c :: (P ++ y :: R)).getD F.length default = c :=
        getD_after_append F c _ default
      have hgj : (F ++ c :: (P ++ y :: R)).getD (F.length + 1 + P.length) default = y := by
        have : F ++ c :: (P ++ y :: R) = (F ++ c :: P) ++ y :: R := by simp
        rw [this, show F.length + 1 + P.length = (F ++ c :: P).length by simp; omega]
        exact getD_after_append (F ++ c :: P) y R default
      rw [hgi, hgj]
      by_cases hlt : c.confidence < y.confidence
      · rw [if_pos hlt]
        have hswap : swapRanked (F ++ c :: (P ++ y :: R)) F.length (F.length + 1 + P.length)
            = F ++ y :: ((P ++ [c]) ++ R) := by
          rw [swapRanked, hgi, hgj, set_after_append F c y (P ++ y :: R)]
          have hre : F ++ y :: (P ++ y :: R) = (F ++ y :: P) ++ y :: R := by simp
          rw [hre, show F.length + 1 + P.length = (F ++ y :: P).length by simp; omega]
          rw [set_after_append (F ++ y :: P) y c R]
          simp
        rw [hswap]
        have hrec := ih fuel F (P ++ [c]) y (by simpa using Nat.le_of_succ_le_succ hfuel)
        rw [show F.length + 1 + P.length + 1 = F.length + 1 + (P ++ [c]).length by simp; omega, hrec]
        simp [selStep, hlt]
      · rw [if_neg hlt]
        have hre : F ++ c :: (P ++ y :: R) = F ++ c :: ((P ++ [y]) ++ R) := by simp
        rw [hre]
        have hrec := ih fuel F (P ++ [y]) c (by simpa using Nat.le_of_succ_le_succ hfuel)
        rw [show F.length + 1 + P.length + 1 = F.length + 1 + (P ++ [y]).length by simp; omega, hrec]
        simp [selStep, hlt]

/-- The outer loop of `RankAnswersByConfidence` computes selection sort on
the suffix after the already-sorted prefix. -/
theorem rankOuter_spec :
    ∀ (n : Nat) (R F : List AnswerResult) (fuel : Nat),
      R.length ≤ n → R.length ≤ fuel + 1 →
      rankOuter fuel F.length (F ++ R) = F ++ selSort R := by
  intro n
  induction n with
  | zero =>
    intro R F fuel hn _
    have : R = [] := List.length_eq_zero.mp (by omega)
    subst this
    cases fuel with
    | zero => simp [rankOuter, selSort]
    | succ fuel =>
      rw [rankOuter, if_neg (by simp)]
      simp [selSort]
  | succ n ih =>
    intro R F fuel hn hfuel
    match R, hn, hfuel with
    | [], _, _ =>
      cases fuel with
      | zero => simp [rankOuter, selSort]
      | succ fuel =>
        rw [rankOuter, if_neg (by simp)]
        simp [selSort]
    | [x], _, _ =>
      cases fuel with
      | zero => simp [rankOuter, selSort]
      | succ fuel =>
        rw [rankOuter, if_neg (by simp)]
        simp [selSort]
    | x :: y :: R', hn, hfuel =>
      cases fuel with
      | zero => simp at hfuel
      | succ fuel =>
        rw [rankOuter, if_pos (by simp)]
        have hinner := rankInner_spec (y :: R') (F ++ x :: y :: R').length F [] x
          (by simp; omega)
        simp only [List.nil_append] at hinner
        rw [show F.length + 1 + ([] : List AnswerResult).length = F.length + 1 by simp] at hinner
        rw [hinner]
        have hlen : ((y :: R').foldl selStep (x, [])).2.length = R'.length + 1 := by
          have := foldl_selStep_length (y :: R') x []
          simpa using this
        have hstep : F ++ ((y :: R').foldl selStep (x, [])).1 ::
            ((y :: R').foldl selStep (x, [])).2
            = (F ++ [((y :: R').foldl selStep (x, [])).1]) ++
              ((y :: R').foldl selStep (x, [])).2 := by simp
        rw [hstep]
        rw [show F.length + 1 = (F ++ [((y :: R').foldl selStep (x, [])).1]).length by simp]
        rw [ih _ _ fuel (by rw [hlen]; simp at hn; omega) (by rw [hlen]; simp at hfuel; omega)]
        rw [selSort]
        simp [selPass]

/-- `RankAnswersByConfidence` is selection sort by descending confidence. -/
theorem rank_eq_selSort (answers : List AnswerResult) :
    rankAnswersByConfidence answers = selSort answers := by
  have := rankOuter_spec answers.length answers [] answers.length (by omega) (by omega)
  simpa [rankAnswersByConfidence] using this

/-- One inner pass permutes the pivot and suffix. -/
theorem foldl_selStep_perm (rest : List AnswerResult) :
    ∀ (c : AnswerResult) (acc : List AnswerResult),
      ((rest.foldl selStep (c, acc)).1 :: (rest.foldl selStep (c, acc)).2).Perm
        (c :: (acc ++ rest)) := by
  induction rest with
  | nil => intro c acc; simp
  | cons y rest ih =>
    intro c acc
    rw [List.foldl_cons, selStep]
    dsimp only
    by_cases hlt : c.confidence < y.confidence
    · rw [if_pos hlt]
      refine (ih y (acc ++ [c])).trans ?_
      have h1 : (acc ++ [c] ++ rest).Perm (c :: (acc ++ rest)) := by
        have h2 := @List.perm_middle _ c acc rest
        simp only [List.append_assoc, List.singleton_append]
        exact h2
      refine (h1.cons y).trans ?_
      refine (List.Perm.swap c y (acc ++ rest)).trans ?_
      exact ((@List.perm_middle _ y acc rest).symm).cons c
    · rw [if_neg hlt]
      refine (ih c (acc ++ [y])).trans ?_
      refine List.Perm.cons c ?_
      have : acc ++ [y] ++ rest = acc ++ (y :: rest) := by simp
      rw [this]

/-- After one inner pass the pivot dominates every displaced element. -/
theorem foldl_selStep_max (rest : List AnswerResult) :
    ∀ (c : AnswerResult) (acc : List AnswerResult),
      (∀ a ∈ acc, a.confidence ≤ c.confidence) →
      (∀ a ∈ (rest.foldl selStep (c, acc)).2,
        a.confidence ≤ (rest.foldl selStep (c, acc)).1.confidence) := by
  induction rest with
  | nil => intro c acc hacc; simpa using hacc
  | cons y rest ih =>
    intro c acc hacc
    rw [List.foldl_cons, selStep]
    dsimp only
    by_cases hlt : c.confidence < y.confidence
    · rw [if_pos hlt]
      refine ih y (acc ++ [c]) ?_
      intro a ha
      rcases List.mem_append.mp ha with ha | ha
      · exact le_of_lt (lt_of_le_of_lt (hacc a ha) hlt)
      · rcases List.mem_singleton.mp ha with rfl
        exact le_of_lt hlt
    · rw [if_neg hlt]
      refine ih c (acc ++ [y]) ?_
      intro a ha
      rcases List.mem_append.mp ha with ha | ha
      · exact hacc a ha
      · rcases List.mem_singleton.mp ha with rfl
        exact le_of_not_lt hlt

/-- Selection sort permutes its input. -/
theorem selSort_perm : ∀ (l : List AnswerResult), (selSort l).Perm l := by
  have main : ∀ (n : Nat) (l : List AnswerResult), l.length ≤ n → (selSort l).Perm l := by
    intro n
    induction n with
    | zero =>
      intro l h
      have : l = [] := List.length_eq_zero.mp (by omega)
      subst this
      simp [selSort]
    | succ n ih =>
      intro l h
      match l with
      | [] => simp [selSort]
      | [x] => simp [selSort]
      | x :: y :: rest =>
        rw [selSort]
        have hlen := foldl_selStep_length (y :: rest) x []
        simp only [List.length_nil, Nat.zero_add, List.length_cons] at hlen
        have htail := ih (selPass x (y :: rest)).2 (by
          simp only [selPass]
          rw [hlen]
          simp at h
          omega)
        refine (htail.cons _).trans ?_
        have := foldl_selStep_perm (y :: rest) x []
        simpa [selPass] using this
  intro l
  exact main l.length l (le_refl _)

/-- Selection sort output is sorted by descending confidence. -/
theorem selSort_sorted : ∀ (l : List AnswerResult),
    List.Sorted (fun a b : AnswerResult => b.confidence ≤ a.confidence) (selSort l) := by
  have main : ∀ (n : Nat) (l : List AnswerResult), l.length ≤ n →
      List.Sorted (fun a b : AnswerResult => b.confidence ≤ a.confidence) (selSort l) := by
    intro n
    induction n with
    | zero =>
      intro l h
      have : l = [] := List.length_eq_zero.mp (by omega)
      subst this
      simp [selSort]
    | succ n ih =>
      intro l h
      match l with
      | [] => simp [selSort]
      | [x] => simp [selSort]
      | x :: y :: rest =>
        rw [selSort, List.sorted_cons]
        have hlen := foldl_selStep_length (y :: rest) x []
        simp only [List.length_nil, Nat.zero_add, List.length_cons] at hlen
        refine ⟨?_, ?_⟩
        · intro b hb
          have hmem : b ∈ (selPass x (y :: rest)).2 :=
            (selSort_perm _).mem_iff.mp hb
          have hmax := foldl_selStep_max (y :: rest) x [] (by simp)
          exact hmax b (by simpa [selPass] using hmem)
        · refine ih _ ?_
          simp only [selPass]
          rw [hlen]
          simp at h
          omega
  intro l
  exact main l.length l (le_refl _)

/-- Stable sort by descending confidence, following the spec's ranking
contract word for word: "Sort remaining answers by `confidence` descending
(stable)". Insertion sort keeps equal-confidence answers in input order. -/
def stableRankByConfidence (answers : List AnswerResult) : List AnswerResult :=
  answers.insertionSort (fun a b => b.confidence ≤ a.confidence)

/-- A concrete `AnswerResult` for counterexamples and witnesses. -/
def mkAnswer (name : String) (conf : ℚ) : AnswerResult :=
  { answer := name, confidence := conf, hasAnswer := true, chunkID := name,
    sourceChunk := "", sourceTitle := "", contentType := "document" }

/-- Counterexample to the stability part of C5: on confidences
`[2, 1, 2, 3]` the double swap loop returns the two equal-confidence
answers in the order `C, A`, while a stable descending sort keeps `A, C`. -/
theorem c5_not_stable_counterexample :
    rankAnswersByConfidence
        [mkAnswer "A" 2, mkAnswer "B" 1, mkAnswer "C" 2, mkAnswer "D" 3]
      ≠ stableRankByConfidence
        [mkAnswer "A" 2, mkAnswer "B" 1, mkAnswer "C" 2, mkAnswer "D" 3] := by
  decide

/-- Claim C5 (amended) — `RankAnswersByConfidence` returns a permutation of
its input sorted by confidence in descending order; the sort is not stable
(equal-confidence answers can come back reordered). -/
theorem c5_rank_perm_sorted (answers : List AnswerResult) :
    (rankAnswersByConfidence answers).Perm answers ∧
    List.Sorted (fun a b : AnswerResult => b.confidence ≤ a.confidence)
      (rankAnswersByConfidence answers) := by
  rw [rank_eq_selSort]
  exact ⟨selSort_perm answers, selSort_sorted answers⟩

/-! ### Claims C4 and C9: the QA pipeline -/

/-- Everything `ExtractAnswersFromChunks` keeps has `has_answer` set and
confidence above `0.1`. -/
theorem extractAnswersFromChunks_kept (llm : String → String → Except String LLMResponse)
    (query : String) :
    ∀ (chunks : List ChunkWithMetadata) (a : AnswerResult),
      a ∈ extractAnswersFromChunks llm query chunks →
      a.hasAnswer = true ∧ a.confidence > 1/10 := by
  intro chunks
  induction chunks with
  | nil => intro a ha; simp [extractAnswersFromChunks] at ha
  | cons ch rest ih =>
    intro a ha
    rw [extractAnswersFromChunks] at ha
    rcases hx : extractAnswer llm query ch.text ch.metadata with e | result
    · rw [hx] at ha
      exact ih a ha
    · rw [hx] at ha
      dsimp only at ha
      by_cases hk : result.hasAnswer = true ∧ result.confidence > 1/10
      · rw [if_pos hk] at ha
        rcases List.mem_cons.mp ha with rfl | ha
        · exact hk
        · exact ih a ha
      · rw [if_neg hk] at ha
        exact ih a ha

/-- Membership in the final answer list comes from the kept extraction
results. -/
theorem qaSearch_answers_mem (vchan tchan : Nat → List SearchResult)
    (llm : String → String → Except String LLMResponse) (query : String) (limit : Nat)
    (a : AnswerResult) (ha : a ∈ (qaSearch vchan tchan llm query limit).answers) :
    a ∈ extractAnswersFromChunks llm query
      (prepareCandidateChunks (vchan (limit * 3)) (tchan (limit * 3)) (limit * 3)) := by
  rw [qaSearch] at ha
  dsimp only at ha
  set answers := extractAnswersFromChunks llm query
    (prepareCandidateChunks (vchan (limit * 3)) (tchan (limit * 3)) (limit * 3)) with hans
  have hperm := (rank_eq_selSort answers) ▸ selSort_perm answers
  by_cases hlen : (rankAnswersByConfidence answers).length > limit
  · rw [if_pos hlen] at ha
    exact hperm.mem_iff.mp (List.mem_of_mem_take ha)
  · rw [if_neg hlen] at ha
    exact hperm.mem_iff.mp ha

/-- Claim C4 — every answer the QA search returns has `has_answer` true and
confidence strictly above `0.1`, and at most `k` answers are returned. -/
theorem c4_qa_filter_and_truncate (vchan tchan : Nat → List SearchResult)
    (llm : String → String → Except String LLMResponse) (query : String) (limit : Nat) :
    (qaSearch vchan tchan llm query limit).answers.length ≤ limit ∧
    ∀ a ∈ (qaSearch vchan tchan llm query limit).answers,
      a.hasAnswer = true ∧ a.confidence > 1/10 := by
  constructor
  · rw [qaSearch]
    dsimp only
    split
    · next hlen =>
      rw [List.length_take]
      omega
    · next hlen => omega
  · intro a ha
    exact extractAnswersFromChunks_kept llm query _ a
      (qaSearch_answers_mem vchan tchan llm query limit a ha)

/-- Concrete channel results used by the pipeline witnesses. -/
def wVectorResult : SearchResult :=
  { id := "c1", chunkText := "Paris is the capital of France.",
    contentTitle := "notes", contentType := "document",
    relevance := 9/10, source := "vector" }

/-- A fixed adaptor answer used by the pipeline witnesses. -/
def wLLM : String → String → Except String LLMResponse :=
  fun _ _ => Except.ok { answer := "Paris", confidence := 1/2, hasAnswer := true,
                          reasoning := "stated in the chunk" }

/-- The answer the pipeline produces from `wVectorResult` under `wLLM`. -/
def wAnswer : AnswerResult :=
  { answer := "Paris", confidence := 1/2, hasAnswer := true, chunkID := "c1",
    sourceChunk := "Paris is the capital of France.", sourceTitle := "notes",
    contentType := "document" }

/-- Witness for C4 at a concrete pipeline run. -/
theorem c4_qa_filter_and_truncate_witness :
    (qaSearch (fun _ => [wVectorResult]) (fun _ => []) wLLM "capital?" 5).answers.length ≤ 5 ∧
    (wAnswer.hasAnswer = true ∧ wAnswer.confidence > 1/10) := by
  have hmem : wAnswer ∈
      (qaSearch (fun _ => [wVectorResult]) (fun _ => []) wLLM "capital?" 5).answers := by
    norm_num [qaSearch, prepareCandidateChunks, prepLoop, extractAnswersFromChunks,
      extractAnswer, wLLM, wVectorResult, rankAnswersByConfidence, rankOuter, rankInner,
      wAnswer]
  exact ⟨(c4_qa_filter_and_truncate (fun _ => [wVectorResult]) (fun _ => []) wLLM "capital?" 5).1,
    (c4_qa_filter_and_truncate (fun _ => [wVectorResult]) (fun _ => []) wLLM "capital?" 5).2
      wAnswer hmem⟩

/-- Confidence bounds on anything a clamping adaptor returns. -/
theorem clampConfidence_mem_unit (c : ℚ) :
    0 ≤ clampConfidence c ∧ clampConfidence c ≤ 1 := by
  rw [clampConfidence]
  split
  · norm_num
  · next h1 =>
    split
    · norm_num
    · next h2 => exact ⟨le_of_not_lt h1, le_of_not_lt h2⟩

/-- Any successful result of the Claude adaptor has clamped confidence. -/
theorem claudeExtractAnswer_bounds (o : LLMCallOutcome) (r : LLMResponse)
    (h : claudeExtractAnswer o = Except.ok r) :
    0 ≤ r.confidence ∧ r.confidence ≤ 1 := by
  cases o with
  | apiError => simp [claudeExtractAnswer] at h
  | emptyChoices => simp [claudeExtractAnswer] at h
  | badJSON =>
    rw [claudeExtractAnswer] at h
    obtain rfl : _ = r := by simpa using h
    norm_num
  | parsed r0 =>
    rw [claudeExtractAnswer] at h
    obtain rfl : _ = r := by simpa using h
    simpa using clampConfidence_mem_unit r0.confidence

/-- Any successful result of the OpenAI adaptor has clamped confidence. -/
theorem openaiExtractAnswer_bounds (o : LLMCallOutcome) (r : LLMResponse)
    (h : openaiExtractAnswer o = Except.ok r) :
    0 ≤ r.confidence ∧ r.confidence ≤ 1 := by
  cases o with
  | apiError => simp [openaiExtractAnswer] at h
  | emptyChoices => simp [openaiExtractAnswer] at h
  | badJSON =>
    rw [openaiExtractAnswer] at h
    obtain rfl : _ = r := by simpa using h
    norm_num
  | parsed r0 =>
    rw [openaiExtractAnswer] at h
    obtain rfl : _ = r := by simpa using h
    simpa using clampConfidence_mem_unit r0.confidence

/-- Confidence bounds propagate from a bounded adaptor through extraction. -/
theorem extractAnswersFromChunks_bounds (llm : String → String → Except String LLMResponse)
    (hllm : ∀ q ch r, llm q ch = Except.ok r → 0 ≤ r.confidence ∧ r.confidence ≤ 1)
    (query : String) :
    ∀ (chunks : List ChunkWithMetadata) (a : AnswerResult),
      a ∈ extractAnswersFromChunks llm query chunks →
      0 ≤ a.confidence ∧ a.confidence ≤ 1 := by
  intro chunks
  induction chunks with
  | nil => intro a ha; simp [extractAnswersFromChunks] at ha
  | cons ch rest ih =>
    intro a ha
    rw [extractAnswersFromChunks] at ha
    rcases hx : extractAnswer llm query ch.text ch.metadata with e | result
    · rw [hx] at ha
      exact ih a ha
    · rw [hx] at ha
      dsimp only at ha
      by_cases hk : result.hasAnswer = true ∧ result.confidence > 1/10
      · rw [if_pos hk] at ha
        rcases List.mem_cons.mp ha with rfl | ha
        · rw [extractAnswer] at hx
          rcases hr : llm query ch.text with e | r0
          · rw [hr] at hx; simp at hx
          · rw [hr] at hx
            obtain rfl : _ = a := by simpa using hx
            simpa using hllm query ch.text r0 hr
        · exact ih a ha
      · rw [if_neg hk] at ha
        exact ih a ha

/-- Claim C9 — both adaptors clamp the parsed confidence into `[0, 1]`, so
every `AnswerResult` the QA search returns (through either adaptor) has
confidence in `[0, 1]` no matter what confidence the LLM reported. -/
theorem c9_confidence_in_unit_interval :
    (∀ (o : LLMCallOutcome) (r : LLMResponse), claudeExtractAnswer o = Except.ok r →
        0 ≤ r.confidence ∧ r.confidence ≤ 1) ∧
    (∀ (o : LLMCallOutcome) (r : LLMResponse), openaiExtractAnswer o = Except.ok r →
        0 ≤ r.confidence ∧ r.confidence ≤ 1) ∧
    (∀ (f : String → String → LLMCallOutcome) (vchan tchan : Nat → List SearchResult)
        (query : String) (limit : Nat) (a : AnswerResult),
        a ∈ (qaSearch vchan tchan (fun q ch => claudeExtractAnswer (f q ch))
              query limit).answers →
        0 ≤ a.confidence ∧ a.confidence ≤ 1) ∧
    (∀ (f : String → String → LLMCallOutcome) (vchan tchan : Nat → List SearchResult)
        (query : String) (limit : Nat) (a : AnswerResult),
        a ∈ (qaSearch vchan tchan (fun q ch => openaiExtractAnswer (f q ch))
              query limit).answers →
        0 ≤ a.confidence ∧ a.confidence ≤ 1) := by
  refine ⟨claudeExtractAnswer_bounds, openaiExtractAnswer_bounds, ?_, ?_⟩
  · intro f vchan tchan query limit a ha
    exact extractAnswersFromChunks_bounds _
      (fun q ch r h => claudeExtractAnswer_bounds (f q ch) r h) query _ a
      (qaSearch_answers_mem vchan tchan _ query limit a ha)
  · intro f vchan tchan query limit a ha
    exact extractAnswersFromChunks_bounds _
      (fun q ch r h => openaiExtractAnswer_bounds (f q ch) r h) query _ a
      (qaSearch_answers_mem vchan tchan _ query limit a ha)

/-- A fixed adaptor outcome whose reported confidence 5 is out of range. -/
def wOutcome : String → String → LLMCallOutcome :=
  fun _ _ => LLMCallOutcome.parsed
    { answer := "Paris", confidence := 5, hasAnswer := true, reasoning := "sure" }

/-- The answer the pipeline produces from `wVectorResult` under the clamping
Claude adaptor fed `wOutcome`. -/
def wClampedAnswer : AnswerResult :=
  { answer := "Paris", confidence := 1, hasAnswer := true, chunkID := "c1",
    sourceChunk := "Paris is the capital of France.", sourceTitle := "notes",
    contentType := "document" }

/-- Witness for C9 at a concrete pipeline run whose LLM reported
confidence 5. -/
theorem c9_confidence_in_unit_interval_witness :
    0 ≤ wClampedAnswer.confidence ∧ wClampedAnswer.confidence ≤ 1 := by
  have hmem : wClampedAnswer ∈
      (qaSearch (fun _ => [wVectorResult]) (fun _ => [])
        (fun q ch => claudeExtractAnswer (wOutcome q ch)) "capital?" 5).answers := by
    norm_num [qaSearch, prepareCandidateChunks, prepLoop, extractAnswersFromChunks,
      extractAnswer, claudeExtractAnswer, clampConfidence, wOutcome, wVectorResult,
      rankAnswersByConfidence, rankOuter, rankInner, wClampedAnswer]
  exact c9_confidence_in_unit_interval.2.2.1 wOutcome (fun _ => [wVectorResult]) (fun _ => [])
    "capital?" 5 wClampedAnswer hmem

/-! ### Claim C6: the fusion score formula -/

/-- Content-type weight exactly as the claim enumerates it. -/
def claimTypeWeight (ct : String) : ℚ :=
  if ct = "document" then 1
  else if ct = "email" then 9/10
  else if ct = "webpage" then 4/5
  else if ct = "audio" then 7/10
  else if ct = "video" then 3/5
  else if ct = "image" then 1/2
  else 4/5

/-- Density weight exactly as the claim states it, as a function of a
length; the claim applies it to the length in characters, the code to the
length in bytes. -/
def claimDensityWeight (n : Nat) : ℚ :=
  if n < 100 then 1/2
  else if n < 300 then 7/10
  else if n < 500 then 9/10
  else 1

/-- Context weight exactly as the claim states it:
`0.7 + 0.3 · (meaningful-word ratio)`. -/
def claimContextWeight (t : String) : ℚ :=
  7/10 + 3/10 * (((strFields t).filter isMeaningful).length : ℚ)
    / ((strFields t).length : ℚ)

/-- Authority weight exactly as the claim enumerates it. -/
def claimAuthorityWeight (ct : String) : ℚ :=
  if ct = "document" then 1
  else if ct = "email" then 9/10
  else if ct = "audio" then 4/5
  else if ct = "webpage" then 7/10
  else 4/5

/-- Temporal weight exactly as the claim enumerates it. -/
def claimTemporalWeight (ct : String) : ℚ :=
  if ct = "document" then 1
  else if ct = "email" then 19/20
  else if ct = "webpage" then 9/10
  else if ct = "audio" then 17/20
  else if ct = "video" then 17/20
  else 19/20

/-- The code's content-type weight table matches the claim's. -/
theorem getContentTypeWeight_eq (ct : String) :
    getContentTypeWeight ct = claimTypeWeight ct := by
  by_cases h1 : ct = "document"
  · subst h1; rfl
  by_cases h2 : ct = "audio"
  · subst h2; rfl
  by_cases h3 : ct = "video"
  · subst h3; rfl
  by_cases h4 : ct = "image"
  · subst h4; rfl
  by_cases h5 : ct = "webpage"
  · subst h5; rfl
  by_cases h6 : ct = "email"
  · subst h6; rfl
  simp only [getContentTypeWeight, claimTypeWeight, if_neg h1, if_neg h2, if_neg h3,
    if_neg h4, if_neg h5, if_neg h6]

/-- The code's authority table matches the claim's. -/
theorem calculateSourceAuthority_eq (ct : String) :
    calculateSourceAuthority ct = claimAuthorityWeight ct := by
  by_cases h1 : ct = "document"
  · subst h1; rfl
  by_cases h2 : ct = "webpage"
  · subst h2; rfl
  by_cases h3 : ct = "audio"
  · subst h3; rfl
  by_cases h4 : ct = "email"
  · subst h4; rfl
  simp only [calculateSourceAuthority, claimAuthorityWeight, if_neg h1, if_neg h2,
    if_neg h3, if_neg h4]

/-- The code's temporal table matches the claim's. -/
theorem calculateTemporalRelevance_eq (r : SearchResult) :
    calculateTemporalRelevance r = claimTemporalWeight r.contentType := by
  set ct := r.contentType with hct
  by_cases h1 : ct = "document"
  · simp [calculateTemporalRelevance, claimTemporalWeight, ← hct, h1]
  by_cases h2 : ct = "email"
  · simp [calculateTemporalRelevance, claimTemporalWeight, ← hct, h1, h2]
  by_cases h3 : ct = "webpage"
  · simp [calculateTemporalRelevance, claimTemporalWeight, ← hct, h1, h2, h3]
  by_cases h4 : ct = "audio"
  · simp [calculateTemporalRelevance, claimTemporalWeight, ← hct, h1, h2, h3, h4]
  by_cases h5 : ct = "video"
  · simp [calculateTemporalRelevance, claimTemporalWeight, ← hct, h1, h2, h3, h4, h5]
  simp [calculateTemporalRelevance, claimTemporalWeight, ← hct, h1, h2, h3, h4, h5]

/-- The running counter of `calculateContextRelevance` counts the
meaningful words. -/
theorem foldl_count_meaningful (ws : List String) :
    ∀ n : Nat, ws.foldl (fun n w => if isMeaningful w then n + 1 else n) n
      = n + (ws.filter isMeaningful).length := by
  induction ws with
  | nil => intro n; simp
  | cons w ws ih =>
    intro n
    rw [List.foldl_cons]
    by_cases hw : isMeaningful w
    · rw [if_pos hw, ih (n + 1), List.filter_cons_of_pos hw, List.length_cons]
      omega
    · rw [if_neg hw, ih n, List.filter_cons_of_neg (by simpa using hw)]

/-- For chunks with at least one word, the code's context weight equals the
claim's formula. -/
theorem calculateContextRelevance_eq (t : String) (h : strFields t ≠ []) :
    calculateContextRelevance t = claimContextWeight t := by
  rw [calculateContextRelevance, claimContextWeight]
  have hlen : (strFields t).length ≠ 0 := by simpa using h
  dsimp only
  rw [if_neg hlen]
  rw [foldl_count_meaningful (strFields t) 0]
  push_cast
  ring

/-- Claim C6 (amended) — the advanced relevance score is the base score
times the five weights of the claim's tables, with every `len` measured in
UTF-8 bytes (Go `len`), not characters. -/
theorem c6_advanced_relevance_formula (r : SearchResult) (stype : String)
    (h : strFields r.chunkText ≠ []) :
    calculateAdvancedRelevance r stype =
      r.relevance * claimTypeWeight r.contentType
        * claimDensityWeight (utf8Len r.chunkText.data)
        * claimContextWeight r.chunkText
        * claimAuthorityWeight r.contentType
        * claimTemporalWeight r.contentType := by
  rw [calculateAdvancedRelevance]
  rw [getContentTypeWeight_eq, calculateSourceAuthority_eq, calculateTemporalRelevance_eq,
    calculateContextRelevance_eq r.chunkText h]
  rfl

/-- A 50-character, 100-byte chunk text: fifty copies of the two-byte
character `é`. -/
def exDensityText : String := String.mk (List.replicate 50 'é')

/-- A candidate whose density bracket differs between byte count (100) and
character count (50). -/
def exDensityResult : SearchResult :=
  { id := "cx", chunkText := exDensityText, contentTitle := "t",
    contentType := "document", relevance := 1, source := "vector" }

/-- Counterexample to C6 as stated: with `len` read as characters the claim
predicts density weight `0.5` for this 50-character chunk, but the code
measures Go `len` (bytes) and uses `0.7`. -/
theorem c6_density_chars_counterexample :
    calculateAdvancedRelevance exDensityResult "vector"
      ≠ exDensityResult.relevance * claimTypeWeight "document"
        * claimDensityWeight exDensityResult.chunkText.data.length
        * claimContextWeight exDensityResult.chunkText
        * claimAuthorityWeight "document"
        * claimTemporalWeight "document" := by
  have hbytes : utf8Len exDensityText.data = 100 := by decide
  have hchars : exDensityText.data.length = 50 := by decide
  have hwords : strFields exDensityText = [exDensityText] := by decide
  have hmean : isMeaningful exDensityText = true := by decide
  rw [calculateAdvancedRelevance]
  rw [show exDensityResult.contentType = "document" from rfl,
    show exDensityResult.chunkText = exDensityText from rfl,
    show exDensityResult.relevance = 1 from rfl]
  rw [calculateInformationDensity, calculateContextRelevance]
  rw [show utf8Len exDensityText.data = 100 from hbytes, hwords]
  rw [claimContextWeight, hwords]
  simp only [getContentTypeWeight, claimTypeWeight, claimAuthorityWeight,
    claimTemporalWeight, claimDensityWeight, calculateSourceAuthority,
    calculateTemporalRelevance, hchars, hmean, exDensityResult]
  norm_num [foldl_count_meaningful, hmean]

/-- Witness for the amended C6 at a concrete input. -/
theorem c6_advanced_relevance_formula_witness :
    strFields exDensityText ≠ [] ∧
    calculateAdvancedRelevance exDensityResult "vector"
      = exDensityResult.relevance * claimTypeWeight exDensityResult.contentType
        * claimDensityWeight (utf8Len exDensityResult.chunkText.data)
        * claimContextWeight exDensityResult.chunkText
        * claimAuthorityWeight exDensityResult.contentType
        * claimTemporalWeight exDensityResult.contentType :=
  ⟨by decide, c6_advanced_relevance_formula exDensityResult "vector" (by decide)⟩

/-! ### Claims C1, C2 and C8: user scoping, empty PDFs, the default token
limit -/

/-- A store holding exactly one document, owned by user `alice`. -/
def exStore : Store :=
  { content_items := [{ id := "ci1", user_id := "alice",
                        content_type := "document", title := "notes" }],
    chunks := [{ id := "c1", content_item_id := "ci1",
                 chunk_text := "Paris is the capital of France." }],
    embeddings := [{ id := "e1", chunk_id := "c1",
                     embedding_model := "text-embedding-ada-002", vector := [1, 0] }] }

/-- Claim C1 fails on the code — `vectorSearch` and `fullTextSearch` take no
`user_id` at all (their SQL has no user predicate), so the chunk owned by
`alice` is returned for every requester, including a different user `bob`;
the claim requires it to be excluded for `bob`. This theorem evaluates both
queries on `exStore` and exhibits the foreign-owned chunk in the results. -/
theorem c1_search_not_user_scoped :
    ((vectorSearch exStore (fun _ => 0) "text-embedding-ada-002" 10).map
        (fun r => r.id) = ["c1"]) ∧
    ((fullTextSearch exStore (fun _ => true) (fun _ => 1) 10).map
        (fun r => r.id) = ["c1"]) ∧
    ownerOfChunk exStore "c1" = some "alice" ∧ "alice" ≠ "bob" := by
  refine ⟨?_, ?_, by decide, by decide⟩
  · rfl
  · rfl

/-- A PDF that opens and is not encrypted but whose pages are all skipped
or extract to nothing. -/
def pdfNoText : PdfFile :=
  { readerFails := false, encrypted := false, emptyPasswordWorks := true,
    pages := [none, some "", none] }

/-- Claim C2 fails on the code — `extractPDFText` returns the empty string
with a `nil` error for a PDF with no extractable text, instead of the
`EmptyContent` failure the spec requires (and which the EPUB and DOCX
extractors do produce on empty output). -/
theorem c2_pdf_empty_extraction_returns_ok :
    extractPDFText pdfNoText = Except.ok "" := rfl

/-- Two sentences of 225 one-word tokens each: 450 tokens fit in one
500-token chunk but not in one 400-token chunk. -/
def c8Text : String :=
  String.intercalate " " (List.replicate 225 "w") ++ ". " ++
    String.intercalate " " (List.replicate 225 "w") ++ "."

set_option maxRecDepth 100000 in
/-- Counterexample to C8 as stated: calling `ChunkText` with the
unspecified value 0 does not behave like a 400-token limit. -/
theorem c8_counterexample : chunkText c8Text 0 ≠ chunkText c8Text 400 := by
  decide

/-- Claim C8 (amended) — when `ChunkText` is called with the unspecified
`max_tokens` value 0, the limit applied is the `NewChunkService` default of
500, not 400. -/
theorem c8_default_is_500 (text : String) : chunkText text 0 = chunkText text 500 := rfl

end Self